import Mathlib

/-!
# Verification of the RocksDB graph-store manager layer

Shallow embedding of `src/lib/src/rdb/managers.rs`: five index "managers"
over an ordered key-value store with column families and atomic write
batches.  Byte strings are `List Nat` (each entry < 256 for well-formed
data); a column family is an association list sorted strictly by bytewise
lexicographic key order, which is exactly the iteration order RocksDB
provides.  Reads happen against the committed store; writes are staged as
batch operations and applied on commit, matching the `WriteBatch` discipline of the source (a read between staging and commit does not see
the pending write).

The key codec (`super::bytes`) is not part of the provided source; its
components are modelled from the spec, §4.1 (see the doc comments on the
`enc*`/`read_*` definitions below).
-/

/-- Bytewise lexicographic strict order on byte strings: the key order of
the underlying store. -/
def keyLt : List Nat → List Nat → Bool
  | [], [] => false
  | [], _ :: _ => true
  | _ :: _, [] => false
  | a :: as, b :: bs => decide (a < b) || (decide (a = b) && keyLt as bs)

/-- Reflexive closure of `keyLt`. -/
def keyLe (a b : List Nat) : Bool := keyLt a b || decide (a = b)

/-- Predicate `startsW p k` holds when byte string `k` begins with `p`
(the `starts_with` check of `take_while_prefixed` in the source). -/
def startsW : List Nat → List Nat → Bool
  | [], _ => true
  | _ :: _, [] => false
  | a :: as, b :: bs => decide (a = b) && startsW as bs

/-- Big-endian encoding of `v` into `n` bytes (most significant first). -/
def toBE : Nat → Nat → List Nat
  | 0, _ => []
  | n + 1, v => v / 256 ^ n :: toBE n (v % 256 ^ n)

/-- Big-endian decoding of a byte string into a natural number. -/
def fromBE : List Nat → Nat
  | [] => 0
  | b :: bs => b * 256 ^ bs.length + fromBE bs

/-- Largest value representable in an unsigned 64-bit integer. -/
def U64MAX : Nat := 2 ^ 64 - 1

/-- Modelled from the spec (the codec module `super::bytes` is not in the
provided source): §4.1, "a sentinel `MAX_DATETIME` denotes the largest
representable instant". -/
def MAX_DATETIME : Nat := U64MAX

/-- Modelled from the spec: the typed key components of §4.1 (`super::bytes`
is missing from the source tree).  `uuid` is a 128-bit identifier,
`ty` a vertex/edge type as its UTF-8 byte string, `dt` an instant as an
unsigned 64-bit count, `str` a trailing unsized UTF-8 byte string. -/
inductive Component where
  | uuid (u : Nat)
  | ty (t : List Nat)
  | dt (d : Nat)
  | str (s : List Nat)
deriving DecidableEq

/-- Modelled from the spec: "UUID: fixed 16 bytes, big-endian canonical
form.  Length omitted — position-known." -/
def encUuid (u : Nat) : List Nat := toBE 16 u

/-- Modelled from the spec: "Type: one length byte `L` (1..=255) followed
by `L` bytes of the UTF-8 form of the type." -/
def encTy (t : List Nat) : List Nat := t.length :: t

/-- Modelled from the spec: "DateTime: fixed 8-byte big-endian unsigned
integer derived from a monotone-in-time function of the instant (e.g.
nanoseconds since epoch, or `MAX−nanoseconds` if a descending time order
per range is desired)".  The descending convention `MAX − instant` is the
one modelled: §4.3 states the non-inverted seek that
`EdgeRangeManager::iterate_for_range` performs in `managers.rs` (seek to
`(id, t, high)`, walk forward) yields the documented reverse-chronological
contract only under the descending encoding. -/
def encDt (d : Nat) : List Nat := toBE 8 (U64MAX - d)

/-- Encoding of one component (spec §4.1); `str` is raw bytes with no
length, legal only as the final component. -/
def Component.enc : Component → List Nat
  | .uuid u => encUuid u
  | .ty t => encTy t
  | .dt d => encDt d
  | .str s => s

/-- Function `build` of the codec: concatenation of component encodings with no
separator (spec §4.1). -/
def build (cs : List Component) : List Nat := (cs.map Component.enc).flatten

/-- Cursor read of a UUID component: 16 bytes, big-endian. -/
def read_uuid (c : List Nat) : Nat × List Nat := (fromBE (c.take 16), c.drop 16)

/-- Cursor read of a Type component: length byte, then that many bytes. -/
def read_type (c : List Nat) : List Nat × List Nat :=
  match c with
  | [] => ([], [])
  | l :: rest => (rest.take l, rest.drop l)

/-- Cursor read of a DateTime component: 8 bytes big-endian, undoing the
descending `MAX − instant` transform. -/
def read_datetime (c : List Nat) : Nat × List Nat := (U64MAX - fromBE (c.take 8), c.drop 8)

/-- Cursor read of a trailing UnsizedString component: all remaining bytes. -/
def read_unsized_string (c : List Nat) : List Nat × List Nat := (c, [])

/-- A legal UUID value fits in 128 bits. -/
def UuidLegal (u : Nat) : Prop := u < 2 ^ 128

/-- A legal Type has 1..=255 bytes, all of which are bytes (spec §4.1:
`L = 0` is reserved/illegal). -/
def TyLegal (t : List Nat) : Prop := 1 ≤ t.length ∧ t.length ≤ 255 ∧ ∀ b ∈ t, b < 256

/-- A legal DateTime fits in an unsigned 64-bit integer. -/
def DtLegal (d : Nat) : Prop := d ≤ U64MAX

/-- A legal UnsizedString is a byte string. -/
def StrLegal (s : List Nat) : Prop := ∀ b ∈ s, b < 256

/-- Legality of one component. -/
def Component.Legal : Component → Prop
  | .uuid u => UuidLegal u
  | .ty t => TyLegal t
  | .dt d => DtLegal d
  | .str s => StrLegal s

instance (u : Nat) : Decidable (UuidLegal u) := by unfold UuidLegal; infer_instance
instance (t : List Nat) : Decidable (TyLegal t) := by unfold TyLegal; infer_instance
instance (d : Nat) : Decidable (DtLegal d) := by unfold DtLegal; infer_instance
instance (s : List Nat) : Decidable (StrLegal s) := by unfold StrLegal; infer_instance
instance (c : Component) : Decidable c.Legal := by
  cases c <;> simp only [Component.Legal] <;> infer_instance

/-- Key of a vertex row (`VertexManager::key`). -/
def VertexManager.key (id : Nat) : List Nat := build [Component.uuid id]

/-- Key of an edge row (`EdgeManager::key`). -/
def EdgeManager.key (o : Nat) (t : List Nat) (i : Nat) : List Nat :=
  build [Component.uuid o, Component.ty t, Component.uuid i]

/-- Key of an edge-range row (`EdgeRangeManager::key`). -/
def EdgeRangeManager.key (first : Nat) (t : List Nat) (d : Nat) (second : Nat) : List Nat :=
  build [Component.uuid first, Component.ty t, Component.dt d, Component.uuid second]

/-- Key of a vertex-property row (`VertexPropertyManager::key`). -/
def VertexPropertyManager.key (v : Nat) (name : List Nat) : List Nat :=
  build [Component.uuid v, Component.str name]

/-- Key of an edge-property row (`EdgePropertyManager::key`). -/
def EdgePropertyManager.key (o : Nat) (t : List Nat) (i : Nat) (name : List Nat) :
    List Nat :=
  build [Component.uuid o, Component.ty t, Component.uuid i, Component.str name]

/-- Decode of an edge-range key, as the closure in
`EdgeRangeManager::iterate` does it: uuid, type, datetime, uuid. -/
def decodeRangeKey (k : List Nat) : Nat × List Nat × Nat × Nat :=
  ((read_uuid k).1,
   (read_type (read_uuid k).2).1,
   (read_datetime (read_type (read_uuid k).2).2).1,
   (read_uuid (read_datetime (read_type (read_uuid k).2).2).2).1)

/-- Decode of an edge key: uuid, type, uuid. -/
def decodeEdgeKey (k : List Nat) : Nat × List Nat × Nat :=
  ((read_uuid k).1,
   (read_type (read_uuid k).2).1,
   (read_uuid (read_type (read_uuid k).2).2).1)

/-- Decode of a vertex-property key, as `VertexPropertyManager::iterate_for_owner`
does it: uuid then trailing unsized string. -/
def decodeVpKey (k : List Nat) : Nat × List Nat :=
  ((read_uuid k).1, (read_unsized_string (read_uuid k).2).1)

/-- Decode of an edge-property key, as `EdgePropertyManager::iterate_for_owner`
does it: uuid, type, uuid, trailing unsized string. -/
def decodeEpKey (k : List Nat) : Nat × List Nat × Nat × List Nat :=
  ((read_uuid k).1,
   (read_type (read_uuid k).2).1,
   (read_uuid (read_type (read_uuid k).2).2).1,
   (read_unsized_string (read_uuid (read_type (read_uuid k).2).2).2).1)

/-- A row of a column family: key and value byte strings. -/
abbrev Row := List Nat × List Nat

/-- A column family: rows sorted strictly ascending by bytewise key
order, the iteration order the engine provides. -/
abbrev Cf := List Row

/-- Point lookup in a column family (`get_cf` of the engine). -/
def cfGet : Cf → List Nat → Option (List Nat)
  | [], _ => none
  | (k, v) :: rest, q => if k = q then some v else cfGet rest q

/-- Upsert of a row, keeping the sorted order (the effect of a batched
`put_cf` once the batch commits). -/
def cfPut : Cf → List Nat → List Nat → Cf
  | [], k, v => [(k, v)]
  | (k', v') :: rest, k, v =>
    if keyLt k k' then (k, v) :: (k', v') :: rest
    else if k = k' then (k, v) :: rest
    else (k', v') :: cfPut rest k v

/-- Removal of a row by key (the effect of a batched `delete_cf` once the
batch commits); deleting an absent key is a no-op. -/
def cfDel : Cf → List Nat → Cf
  | [], _ => []
  | (k', v') :: rest, k => if k = k' then rest else (k', v') :: cfDel rest k

/-- Strict sortedness of a column family by key. -/
def CfSorted (cf : Cf) : Prop := cf.Pairwise (fun a b => keyLt a.1 b.1 = true)

/-- Forward iteration from a seek key: all rows at or after it, in order
(`iterator_cf` with `IteratorMode::From(key, Direction::Forward)`). -/
def iterFrom (cf : Cf) (k : List Nat) : List Row :=
  cf.filter (fun e => keyLe k e.1)

/-- Helper `take_while_prefixed` from the source: yield while the row key still
begins with the given prefix. -/
def takeWhilePrefixed (iterator : List Row) (pfx : List Nat) : List Row :=
  iterator.takeWhile (fun e => startsW pfx e.1)

/-- The six column families of the store. -/
structure Db where
  vertices : Cf
  edges : Cf
  edge_ranges : Cf
  reversed_edge_ranges : Cf
  vertex_properties : Cf
  edge_properties : Cf
deriving DecidableEq

/-- Column-family names (`vertices:v1`, `edges:v1`, `edge_ranges:v1`,
`reversed_edge_ranges:v1`, `vertex_properties:v1`, `edge_properties:v1`). -/
inductive CfId where
  | vertices
  | edges
  | edgeRanges
  | reversedEdgeRanges
  | vertexProps
  | edgeProps
deriving DecidableEq

/-- Projection of the column family named by a `CfId`. -/
def Db.cf (db : Db) : CfId → Cf
  | .vertices => db.vertices
  | .edges => db.edges
  | .edgeRanges => db.edge_ranges
  | .reversedEdgeRanges => db.reversed_edge_ranges
  | .vertexProps => db.vertex_properties
  | .edgeProps => db.edge_properties

/-- Replace the column family named by a `CfId`. -/
def Db.setCf (db : Db) : CfId → Cf → Db
  | .vertices, cf => { db with vertices := cf }
  | .edges, cf => { db with edges := cf }
  | .edgeRanges, cf => { db with edge_ranges := cf }
  | .reversedEdgeRanges, cf => { db with reversed_edge_ranges := cf }
  | .vertexProps, cf => { db with vertex_properties := cf }
  | .edgeProps, cf => { db with edge_properties := cf }

/-- One staged operation of a `WriteBatch`. -/
inductive BatchOp where
  | put (c : CfId) (k v : List Nat)
  | del (c : CfId) (k : List Nat)
deriving DecidableEq

/-- Apply one staged operation to the committed store. -/
def applyOp (db : Db) : BatchOp → Db
  | .put c k v => db.setCf c (cfPut (db.cf c) k v)
  | .del c k => db.setCf c (cfDel (db.cf c) k)

/-- Atomic commit of a write batch: its operations applied in staging
order. -/
def commit (db : Db) (batch : List BatchOp) : Db := batch.foldl applyOp db

/-- All six column families sorted. -/
def DbSorted (db : Db) : Prop := ∀ c : CfId, CfSorted (db.cf c)

/-- The staged actions of a batch on one column family, in staging order:
`some v` is a put, `none` a delete. -/
def cfActs (c : CfId) : List BatchOp → List (List Nat × Option (List Nat))
  | [] => []
  | .put c' k v :: rest => if c' = c then (k, some v) :: cfActs c rest else cfActs c rest
  | .del c' k :: rest => if c' = c then (k, none) :: cfActs c rest else cfActs c rest

/-- Apply a list of single-family actions in order. -/
def applyActs (cf : Cf) : List (List Nat × Option (List Nat)) → Cf
  | [] => cf
  | (k, some v) :: rest => applyActs (cfPut cf k v) rest
  | (k, none) :: rest => applyActs (cfDel cf k) rest

/-- Error kinds surfaced by the library (`errors::Result`): store I/O and
JSON codec failures.  In this pure model no store read fails and JSON
blobs are opaque byte strings, so every operation in fact constructs
`.ok`; the `Except` shape mirrors the `Result` signatures of the source. -/
inductive DbErr where
  | storeFailure
  | jsonFailure
deriving DecidableEq

/-- Source `VertexItem` of the source: id and type. -/
abbrev VertexItem := Nat × List Nat

/-- Source `EdgeRangeItem` of the source: first id, type, update datetime,
second id. -/
abbrev EdgeRangeItem := Nat × List Nat × Nat × Nat

/-- Source `OwnedPropertyItem` of the source: (owner id, property name) and the
JSON value. -/
abbrev OwnedPropertyItem := (Nat × List Nat) × List Nat

/-- Source `EdgePropertyItem` of the source: (outbound id, type, inbound id,
property name) and the JSON value. -/
abbrev EdgePropertyItem := (Nat × List Nat × Nat × List Nat) × List Nat

/-- JSON property values are kept as their serialized byte strings;
`serde_json::from_slice` is modelled as the identity, always succeeding
(the claims under verification do not depend on JSON parse failures). -/
def parseJson (v : List Nat) : Except DbErr (List Nat) := .ok v

/-- Models `serde_json::to_vec`, modelled as the identity on the serialized
form. -/
def toJsonVec (v : List Nat) : List Nat := v

/-- Source `VertexManager::exists`: point lookup. -/
def VertexManager.existsVertex (db : Db) (id : Nat) : Except DbErr Bool :=
  .ok (cfGet db.vertices (VertexManager.key id)).isSome

/-- Source `VertexManager::get`: point lookup, decoding the value as a Type
component; a missing row is `Ok(None)`. -/
def VertexManager.get (db : Db) (id : Nat) : Except DbErr (Option (List Nat)) :=
  match cfGet db.vertices (VertexManager.key id) with
  | some value_bytes => .ok (some (read_type value_bytes).1)
  | none => .ok none

/-- Source `VertexManager::create`: stage `key = UUID(id), value = Type(t)` on
the batch; no existence check, no read. -/
def VertexManager.create (vertex_id : Nat) (t : List Nat) : List BatchOp :=
  [BatchOp.put .vertices (VertexManager.key vertex_id) (build [Component.ty t])]

/-- Source `EdgeRangeManager::set`: stage a put of the range key with empty
value; `c` selects the forward or reversed family the instance was
constructed over. -/
def EdgeRangeManager.set (c : CfId) (first_id : Nat) (t : List Nat) (update_datetime : Nat)
    (second_id : Nat) : List BatchOp :=
  [BatchOp.put c (EdgeRangeManager.key first_id t update_datetime second_id) []]

/-- Source `EdgeRangeManager::delete`: stage a delete of that exact range key. -/
def EdgeRangeManager.delete (c : CfId) (first_id : Nat) (t : List Nat)
    (update_datetime : Nat) (second_id : Nat) : List BatchOp :=
  [BatchOp.del c (EdgeRangeManager.key first_id t update_datetime second_id)]

/-- Source `EdgeRangeManager::iterate`: take rows while prefixed, then decode
each key as (uuid, type, datetime, uuid).  The decode cannot fail, so
every item is `Ok`, matching the source closure. -/
def EdgeRangeManager.iterate (iterator : List Row) (pfx : List Nat) :
    List (Except DbErr EdgeRangeItem) :=
  (takeWhilePrefixed iterator pfx).map (fun e => .ok (decodeRangeKey e.1))

/-- The in-memory timestamp filter of `iterate_for_range` (untyped,
bounded case): keep successfully decoded items with
`update_datetime ≤ high`; any error item passes through. -/
def timeFilter (high : Nat) (items : List (Except DbErr EdgeRangeItem)) :
    List (Except DbErr EdgeRangeItem) :=
  items.filter (fun item =>
    match item with
    | .ok (_, _, update_datetime, _) => decide (update_datetime ≤ high)
    | .error _ => true)

/-- Source `EdgeRangeManager::iterate_for_range`.  With a type: seek to
`(id, t, high ?? MAX_DATETIME)` and yield while the `(id, t)` prefix
holds.  Without a type: seek to the `(id)` prefix, yield all prefixed
rows, and—when `high` is supplied—filter in memory by timestamp. -/
def EdgeRangeManager.iterateForRange (db : Db) (c : CfId) (id : Nat)
    (t : Option (List Nat)) (high : Option Nat) : List (Except DbErr EdgeRangeItem) :=
  match t with
  | some t =>
    let high' := high.getD MAX_DATETIME
    let pfx := build [Component.uuid id, Component.ty t]
    let low_key := build [Component.uuid id, Component.ty t, Component.dt high']
    EdgeRangeManager.iterate (iterFrom (db.cf c) low_key) pfx
  | none =>
    let pfx := build [Component.uuid id]
    let mapped := EdgeRangeManager.iterate (iterFrom (db.cf c) pfx) pfx
    match high with
    | some high => timeFilter high mapped
    | none => mapped

/-- Source `EdgeRangeManager::iterate_for_owner`: seek to the `(id)` prefix and
yield while it holds. -/
def EdgeRangeManager.iterateForOwner (db : Db) (c : CfId) (id : Nat) :
    List (Except DbErr EdgeRangeItem) :=
  EdgeRangeManager.iterate (iterFrom (db.cf c) (build [Component.uuid id]))
    (build [Component.uuid id])

/-- Source `VertexPropertyManager::get`: point lookup, then JSON parse; a
missing row is `Ok(None)`. -/
def VertexPropertyManager.get (db : Db) (vertex_id : Nat) (name : List Nat) :
    Except DbErr (Option (List Nat)) :=
  match cfGet db.vertex_properties (VertexPropertyManager.key vertex_id name) with
  | some value_bytes => (parseJson value_bytes).map some
  | none => .ok none

/-- Source `VertexPropertyManager::set`. -/
def VertexPropertyManager.set (vertex_id : Nat) (name value : List Nat) : List BatchOp :=
  [BatchOp.put .vertexProps (VertexPropertyManager.key vertex_id name) (toJsonVec value)]

/-- Source `VertexPropertyManager::delete`. -/
def VertexPropertyManager.delete (vertex_id : Nat) (name : List Nat) : List BatchOp :=
  [BatchOp.del .vertexProps (VertexPropertyManager.key vertex_id name)]

/-- Source `VertexPropertyManager::iterate_for_owner`: scan the `UUID(id)`
prefix, decode owner and trailing name, parse the JSON value. -/
def VertexPropertyManager.iterateForOwner (db : Db) (vertex_id : Nat) :
    List (Except DbErr OwnedPropertyItem) :=
  (takeWhilePrefixed (iterFrom db.vertex_properties (build [Component.uuid vertex_id]))
      (build [Component.uuid vertex_id])).map
    (fun e => (parseJson e.2).map (fun value => (decodeVpKey e.1, value)))

/-- Source `EdgePropertyManager::get`. -/
def EdgePropertyManager.get (db : Db) (outbound_id : Nat) (t : List Nat)
    (inbound_id : Nat) (name : List Nat) : Except DbErr (Option (List Nat)) :=
  match cfGet db.edge_properties (EdgePropertyManager.key outbound_id t inbound_id name) with
  | some value_bytes => (parseJson value_bytes).map some
  | none => .ok none

/-- Source `EdgePropertyManager::set`. -/
def EdgePropertyManager.set (outbound_id : Nat) (t : List Nat) (inbound_id : Nat)
    (name value : List Nat) : List BatchOp :=
  [BatchOp.put .edgeProps (EdgePropertyManager.key outbound_id t inbound_id name)
    (toJsonVec value)]

/-- Source `EdgePropertyManager::delete`. -/
def EdgePropertyManager.delete (outbound_id : Nat) (t : List Nat) (inbound_id : Nat)
    (name : List Nat) : List BatchOp :=
  [BatchOp.del .edgeProps (EdgePropertyManager.key outbound_id t inbound_id name)]

/-- Source `EdgePropertyManager::iterate_for_owner`: scan the
`(UUID(o), Type(t), UUID(i))` prefix, decode the key components and the
trailing name, parse the JSON value. -/
def EdgePropertyManager.iterateForOwner (db : Db) (outbound_id : Nat) (t : List Nat)
    (inbound_id : Nat) : List (Except DbErr EdgePropertyItem) :=
  (takeWhilePrefixed
      (iterFrom db.edge_properties
        (build [Component.uuid outbound_id, Component.ty t, Component.uuid inbound_id]))
      (build [Component.uuid outbound_id, Component.ty t, Component.uuid inbound_id])).map
    (fun e => (parseJson e.2).map (fun value => (decodeEpKey e.1, value)))

/-- Source `EdgeManager::get`: point lookup, decoding the value as a DateTime
component; a missing row is `Ok(None)`. -/
def EdgeManager.get (db : Db) (outbound_id : Nat) (t : List Nat) (inbound_id : Nat) :
    Except DbErr (Option Nat) :=
  match cfGet db.edges (EdgeManager.key outbound_id t inbound_id) with
  | some value_bytes => .ok (some (read_datetime value_bytes).1)
  | none => .ok none

/-- Source `EdgeManager::set`: read the current timestamp from the committed
store; if present, stage deletion of both stale range rows; then stage
the edge row put at the new timestamp and both new range rows. -/
def EdgeManager.set (db : Db) (outbound_id : Nat) (t : List Nat) (inbound_id : Nat)
    (new_update_datetime : Nat) : List BatchOp :=
  (match cfGet db.edges (EdgeManager.key outbound_id t inbound_id) with
   | some value_bytes =>
     EdgeRangeManager.delete .edgeRanges outbound_id t (read_datetime value_bytes).1
         inbound_id
       ++ EdgeRangeManager.delete .reversedEdgeRanges inbound_id t
         (read_datetime value_bytes).1 outbound_id
   | none => [])
  ++ [BatchOp.put .edges (EdgeManager.key outbound_id t inbound_id)
        (build [Component.dt new_update_datetime])]
  ++ EdgeRangeManager.set .edgeRanges outbound_id t new_update_datetime inbound_id
  ++ EdgeRangeManager.set .reversedEdgeRanges inbound_id t new_update_datetime outbound_id

/-- Source `EdgeManager::delete`: stage deletion of the edge row, both range
rows at the caller-supplied timestamp, and every edge-property row found
by scanning the `(o, t, i)` prefix.  (In the model property items never
carry errors, so the arm where the source would abort the cascade is
unreachable.) -/
def EdgeManager.delete (db : Db) (outbound_id : Nat) (t : List Nat) (inbound_id : Nat)
    (update_datetime : Nat) : List BatchOp :=
  [BatchOp.del .edges (EdgeManager.key outbound_id t inbound_id)]
  ++ EdgeRangeManager.delete .edgeRanges outbound_id t update_datetime inbound_id
  ++ EdgeRangeManager.delete .reversedEdgeRanges inbound_id t update_datetime outbound_id
  ++ (EdgePropertyManager.iterateForOwner db outbound_id t inbound_id).filterMap
      (fun item =>
        match item with
        | .ok ((po, pt, pi, name), _) =>
          some (BatchOp.del .edgeProps (EdgePropertyManager.key po pt pi name))
        | .error _ => none)

/-- Source `VertexManager::delete`: stage deletion of the vertex row, of every
owned vertex-property row, and—via `EdgeManager::delete`—of every edge
discovered through the forward and reversed range scans for this owner. -/
def VertexManager.delete (db : Db) (id : Nat) : List BatchOp :=
  [BatchOp.del .vertices (VertexManager.key id)]
  ++ (VertexPropertyManager.iterateForOwner db id).filterMap
      (fun item =>
        match item with
        | .ok ((owner_id, name), _) =>
          some (BatchOp.del .vertexProps (VertexPropertyManager.key owner_id name))
        | .error _ => none)
  ++ ((EdgeRangeManager.iterateForOwner db .edgeRanges id).map
      (fun item =>
        match item with
        | .ok (outbound_id, t, update_datetime, inbound_id) =>
          EdgeManager.delete db outbound_id t inbound_id update_datetime
        | .error _ => [])).flatten
  ++ ((EdgeRangeManager.iterateForOwner db .reversedEdgeRanges id).map
      (fun item =>
        match item with
        | .ok (inbound_id, t, update_datetime, outbound_id) =>
          EdgeManager.delete db outbound_id t inbound_id update_datetime
        | .error _ => [])).flatten

/-- A well-formed edge-row key: the canonical encoding of its own decode,
with legal components. -/
def EdgeKeyOk (k : List Nat) : Prop :=
  UuidLegal (decodeEdgeKey k).1 ∧ TyLegal (decodeEdgeKey k).2.1 ∧
    UuidLegal (decodeEdgeKey k).2.2 ∧
    k = EdgeManager.key (decodeEdgeKey k).1 (decodeEdgeKey k).2.1 (decodeEdgeKey k).2.2

/-- A well-formed edge-row value: the canonical encoding of a legal
timestamp. -/
def DtValOk (v : List Nat) : Prop :=
  DtLegal (read_datetime v).1 ∧ v = encDt (read_datetime v).1

/-- A well-formed range-row key: the canonical encoding of its own
decode, with legal components. -/
def RangeKeyOk (k : List Nat) : Prop :=
  UuidLegal (decodeRangeKey k).1 ∧ TyLegal (decodeRangeKey k).2.1 ∧
    DtLegal (decodeRangeKey k).2.2.1 ∧ UuidLegal (decodeRangeKey k).2.2.2 ∧
    k = EdgeRangeManager.key (decodeRangeKey k).1 (decodeRangeKey k).2.1
      (decodeRangeKey k).2.2.1 (decodeRangeKey k).2.2.2

instance (k : List Nat) : Decidable (EdgeKeyOk k) := by unfold EdgeKeyOk; infer_instance
instance (v : List Nat) : Decidable (DtValOk v) := by unfold DtValOk; infer_instance
instance (k : List Nat) : Decidable (RangeKeyOk k) := by unfold RangeKeyOk; infer_instance

/-- The cross-index invariant tying the edges family to both range
families: every edge row is a legal canonical encoding whose value is a
canonical timestamp; every range row (in either family) is legal,
canonical, empty-valued, and carries the *current* timestamp of its edge
row; and both mirror rows of every edge exist. -/
def MirrorInv (db : Db) : Prop :=
  (∀ e ∈ db.edges, EdgeKeyOk e.1 ∧ DtValOk e.2)
  ∧ (∀ r ∈ db.edge_ranges,
      RangeKeyOk r.1 ∧ r.2 = [] ∧
      cfGet db.edges
          (EdgeManager.key (decodeRangeKey r.1).1 (decodeRangeKey r.1).2.1
            (decodeRangeKey r.1).2.2.2)
        = some (encDt (decodeRangeKey r.1).2.2.1))
  ∧ (∀ r ∈ db.reversed_edge_ranges,
      RangeKeyOk r.1 ∧ r.2 = [] ∧
      cfGet db.edges
          (EdgeManager.key (decodeRangeKey r.1).2.2.2 (decodeRangeKey r.1).2.1
            (decodeRangeKey r.1).1)
        = some (encDt (decodeRangeKey r.1).2.2.1))
  ∧ (∀ e ∈ db.edges,
      cfGet db.edge_ranges
          (EdgeRangeManager.key (decodeEdgeKey e.1).1 (decodeEdgeKey e.1).2.1
            (read_datetime e.2).1 (decodeEdgeKey e.1).2.2)
        = some []
      ∧ cfGet db.reversed_edge_ranges
          (EdgeRangeManager.key (decodeEdgeKey e.1).2.2 (decodeEdgeKey e.1).2.1
            (read_datetime e.2).1 (decodeEdgeKey e.1).1)
        = some [])

instance (db : Db) : Decidable (MirrorInv db) := by unfold MirrorInv; infer_instance

/-- Spec global invariant 2 restricted to edge properties: every
edge-property row is a canonical legal encoding and belongs to an edge
row that exists. -/
def EdgePropOwn (db : Db) : Prop :=
  ∀ r ∈ db.edge_properties,
    UuidLegal (decodeEpKey r.1).1 ∧ TyLegal (decodeEpKey r.1).2.1 ∧
    UuidLegal (decodeEpKey r.1).2.2.1 ∧
    r.1 = EdgePropertyManager.key (decodeEpKey r.1).1 (decodeEpKey r.1).2.1
      (decodeEpKey r.1).2.2.1 (decodeEpKey r.1).2.2.2 ∧
    (cfGet db.edges
        (EdgeManager.key (decodeEpKey r.1).1 (decodeEpKey r.1).2.1
          (decodeEpKey r.1).2.2.1)).isSome = true

instance (db : Db) : Decidable (EdgePropOwn db) := by unfold EdgePropOwn; infer_instance

instance (cf : Cf) : Decidable (CfSorted cf) := by unfold CfSorted; infer_instance

instance (db : Db) : Decidable (DbSorted db) :=
  decidable_of_iff
    (CfSorted db.vertices ∧ CfSorted db.edges ∧ CfSorted db.edge_ranges ∧
      CfSorted db.reversed_edge_ranges ∧ CfSorted db.vertex_properties ∧
      CfSorted db.edge_properties)
    (by
      constructor
      · rintro ⟨h1, h2, h3, h4, h5, h6⟩ c
        cases c <;> assumption
      · intro h
        exact ⟨h .vertices, h .edges, h .edgeRanges, h .reversedEdgeRanges,
          h .vertexProps, h .edgeProps⟩)

/-- The update-datetime of a yielded range item (`0` for an error item);
used to state chronological ordering of scans. -/
def dtOf : Except DbErr EdgeRangeItem → Nat
  | .ok (_, _, update_datetime, _) => update_datetime
  | .error _ => 0

/-- Well-formedness of a range column family: every key is a canonical
legal range-key encoding. -/
def RangeCfWf (cf : Cf) : Prop := ∀ r ∈ cf, RangeKeyOk r.1

instance (cf : Cf) : Decidable (RangeCfWf cf) := by unfold RangeCfWf; infer_instance

/-- The kind of a key component (the schema position it fills). -/
inductive CKind where
  | uuid
  | ty
  | dt
  | str
deriving DecidableEq

/-- Kind of a component. -/
def Component.kind : Component → CKind
  | .uuid _ => CKind.uuid
  | .ty _ => CKind.ty
  | .dt _ => CKind.dt
  | .str _ => CKind.str

/-- Decoding a composite key against a known schema, consuming the
cursor component by component in declared order (spec §4.1). -/
def decodeTuple : List CKind → List Nat → List Component
  | [], _ => []
  | CKind.uuid :: ks, c => .uuid (read_uuid c).1 :: decodeTuple ks (read_uuid c).2
  | CKind.ty :: ks, c => .ty (read_type c).1 :: decodeTuple ks (read_type c).2
  | CKind.dt :: ks, c => .dt (read_datetime c).1 :: decodeTuple ks (read_datetime c).2
  | CKind.str :: ks, c => .str (read_unsized_string c).1
      :: decodeTuple ks (read_unsized_string c).2

/-- A legal tuple: every component legal, and an UnsizedString only in
the final position (spec §4.1). -/
def TupleLegal (cs : List Component) : Prop :=
  (∀ c ∈ cs, c.Legal) ∧ ∀ c ∈ cs.dropLast, c.kind ≠ CKind.str

instance (cs : List Component) : Decidable (TupleLegal cs) := by
  unfold TupleLegal; infer_instance

/-- The naive order on one component, as a reader of the claim in the spec
would take it: UUIDs and DateTimes by value, Types and strings bytewise
(the spec compares names bytewise). -/
def compLtNat : Component → Component → Prop
  | .uuid u1, .uuid u2 => u1 < u2
  | .ty t1, .ty t2 => keyLt t1 t2 = true
  | .dt d1, .dt d2 => d1 < d2
  | .str s1, .str s2 => keyLt s1 s2 = true
  | _, _ => False

/-- Tuple-lexicographic order over `compLtNat`. -/
def tupleLtNat : List Component → List Component → Prop
  | _, [] => False
  | [], _ :: _ => True
  | c1 :: r1, c2 :: r2 => compLtNat c1 c2 ∨ (c1 = c2 ∧ tupleLtNat r1 r2)

/-- The order on one component actually induced by the byte encoding:
UUIDs by value; Types shortlex (length first, then bytewise, because of
the length-prefix byte); DateTimes reversed (descending encoding);
strings bytewise. -/
def compLtEnc : Component → Component → Prop
  | .uuid u1, .uuid u2 => u1 < u2
  | .ty t1, .ty t2 => t1.length < t2.length ∨ (t1.length = t2.length ∧ keyLt t1 t2 = true)
  | .dt d1, .dt d2 => d2 < d1
  | .str s1, .str s2 => keyLt s1 s2 = true
  | _, _ => False

/-- Tuple-lexicographic order over `compLtEnc`. -/
def tupleLtEnc : List Component → List Component → Prop
  | _, [] => False
  | [], _ :: _ => True
  | c1 :: r1, c2 :: r2 => compLtEnc c1 c2 ∨ (c1 = c2 ∧ tupleLtEnc r1 r2)

instance : ∀ c1 c2 : Component, Decidable (compLtNat c1 c2) := by
  intro c1 c2
  cases c1 <;> cases c2 <;> simp only [compLtNat] <;> infer_instance

instance : ∀ c1 c2 : Component, Decidable (compLtEnc c1 c2) := by
  intro c1 c2
  cases c1 <;> cases c2 <;> simp only [compLtEnc] <;> infer_instance

instance : ∀ t1 t2 : List Component, Decidable (tupleLtNat t1 t2) := by
  intro t1
  induction t1 with
  | nil =>
    intro t2
    cases t2 <;> simp only [tupleLtNat] <;> infer_instance
  | cons c1 r1 ih =>
    intro t2
    cases t2 with
    | nil => simp only [tupleLtNat]; infer_instance
    | cons c2 r2 =>
      have := ih r2
      simp only [tupleLtNat]
      infer_instance

instance : ∀ t1 t2 : List Component, Decidable (tupleLtEnc t1 t2) := by
  intro t1
  induction t1 with
  | nil =>
    intro t2
    cases t2 <;> simp only [tupleLtEnc] <;> infer_instance
  | cons c1 r1 ih =>
    intro t2
    cases t2 with
    | nil => simp only [tupleLtEnc]; infer_instance
    | cons c2 r2 =>
      have := ih r2
      simp only [tupleLtEnc]
      infer_instance

instance {ε α : Type} [DecidableEq ε] [DecidableEq α] : DecidableEq (Except ε α) := fun x y =>
  match x, y with
  | .ok a, .ok b =>
    if h : a = b then isTrue (by rw [h])
    else isFalse (by intro hh; injection hh; contradiction)
  | .error a, .error b =>
    if h : a = b then isTrue (by rw [h])
    else isFalse (by intro hh; injection hh; contradiction)
  | .ok _, .error _ => isFalse (by intro hh; exact Except.noConfusion hh)
  | .error _, .ok _ => isFalse (by intro hh; exact Except.noConfusion hh)

/-- The column family an operation targets. -/
def opCf : BatchOp → CfId
  | .put c _ _ => c
  | .del c _ => c

/-- Property P1 as the spec states it: every edge row has both mirror
range rows at its stored timestamp, and no range row in either family
mentions the same edge identity at any other timestamp. -/
def MirrorP1 (db : Db) : Prop :=
  ∀ e ∈ db.edges,
    cfGet db.edge_ranges
        (EdgeRangeManager.key (decodeEdgeKey e.1).1 (decodeEdgeKey e.1).2.1
          (read_datetime e.2).1 (decodeEdgeKey e.1).2.2) = some []
    ∧ cfGet db.reversed_edge_ranges
        (EdgeRangeManager.key (decodeEdgeKey e.1).2.2 (decodeEdgeKey e.1).2.1
          (read_datetime e.2).1 (decodeEdgeKey e.1).1) = some []
    ∧ (∀ d', DtLegal d' →
        EdgeRangeManager.key (decodeEdgeKey e.1).1 (decodeEdgeKey e.1).2.1 d'
            (decodeEdgeKey e.1).2.2 ∈ db.edge_ranges.map Prod.fst →
        d' = (read_datetime e.2).1)
    ∧ (∀ d', DtLegal d' →
        EdgeRangeManager.key (decodeEdgeKey e.1).2.2 (decodeEdgeKey e.1).2.1 d'
            (decodeEdgeKey e.1).1 ∈ db.reversed_edge_ranges.map Prod.fst →
        d' = (read_datetime e.2).1)

/-- The vertex-property deletions staged by `VertexManager::delete`. -/
def vpDels (db : Db) (v : Nat) : List BatchOp :=
  (VertexPropertyManager.iterateForOwner db v).filterMap
    (fun item =>
      match item with
      | .ok ((owner_id, name), _) =>
        some (BatchOp.del CfId.vertexProps (VertexPropertyManager.key owner_id name))
      | .error _ => none)

/-- The edge cascade staged from the forward range scan by
`VertexManager::delete`. -/
def fwdCascade (db : Db) (v : Nat) : List BatchOp :=
  ((EdgeRangeManager.iterateForOwner db CfId.edgeRanges v).map
    (fun item =>
      match item with
      | .ok (outbound_id, t, update_datetime, inbound_id) =>
        EdgeManager.delete db outbound_id t inbound_id update_datetime
      | .error _ => [])).flatten

/-- The edge cascade staged from the reversed range scan by
`VertexManager::delete`. -/
def revCascade (db : Db) (v : Nat) : List BatchOp :=
  ((EdgeRangeManager.iterateForOwner db CfId.reversedEdgeRanges v).map
    (fun item =>
      match item with
      | .ok (inbound_id, t, update_datetime, outbound_id) =>
        EdgeManager.delete db outbound_id t inbound_id update_datetime
      | .error _ => [])).flatten

theorem keyLt_irrefl (a : List Nat) : keyLt a a = false := by
  induction a with
  | nil => rfl
  | cons x xs ih => simp [keyLt, ih]

theorem keyLt_trans {a b c : List Nat} (h1 : keyLt a b = true) (h2 : keyLt b c = true) :
    keyLt a c = true := by
  induction a generalizing b c with
  | nil =>
    cases b with
    | nil => simp [keyLt] at h1
    | cons y ys =>
      cases c with
      | nil => simp [keyLt] at h2
      | cons z zs => rfl
  | cons x xs ih =>
    cases b with
    | nil => simp [keyLt] at h1
    | cons y ys =>
      cases c with
      | nil => simp [keyLt] at h2
      | cons z zs =>
        simp only [keyLt, Bool.or_eq_true, Bool.and_eq_true, decide_eq_true_eq] at h1 h2 ⊢
        rcases h1 with h1 | ⟨he1, h1⟩
        · rcases h2 with h2 | ⟨he2, h2⟩
          · exact Or.inl (Nat.lt_trans h1 h2)
          · exact Or.inl (he2 ▸ h1)
        · rcases h2 with h2 | ⟨he2, h2⟩
          · exact Or.inl (he1 ▸ h2)
          · exact Or.inr ⟨he1.trans he2, ih h1 h2⟩

theorem keyLt_total (a b : List Nat) :
    keyLt a b = true ∨ a = b ∨ keyLt b a = true := by
  induction a generalizing b with
  | nil =>
    cases b with
    | nil => exact Or.inr (Or.inl rfl)
    | cons y ys => exact Or.inl rfl
  | cons x xs ih =>
    cases b with
    | nil => exact Or.inr (Or.inr rfl)
    | cons y ys =>
      rcases Nat.lt_trichotomy x y with hxy | hxy | hxy
      · exact Or.inl (by simp [keyLt, hxy])
      · rcases ih ys with h | h | h
        · exact Or.inl (by simp [keyLt, hxy, h])
        · exact Or.inr (Or.inl (by rw [hxy, h]))
        · exact Or.inr (Or.inr (by simp [keyLt, hxy, h]))
      · exact Or.inr (Or.inr (by simp [keyLt, hxy]))

theorem keyLt_asymm {a b : List Nat} (h : keyLt a b = true) : keyLt b a = false := by
  by_contra hc
  have hba : keyLt b a = true := by
    cases hh : keyLt b a with
    | false => exact absurd hh hc
    | true => rfl
  have := keyLt_trans h hba
  rw [keyLt_irrefl] at this
  exact Bool.noConfusion this

theorem keyLe_refl (a : List Nat) : keyLe a a = true := by
  simp [keyLe]

theorem keyLe_of_keyLt {a b : List Nat} (h : keyLt a b = true) : keyLe a b = true := by
  simp [keyLe, h]

theorem keyLe_trans {a b c : List Nat} (h1 : keyLe a b = true) (h2 : keyLe b c = true) :
    keyLe a c = true := by
  simp only [keyLe, Bool.or_eq_true, decide_eq_true_eq] at h1 h2 ⊢
  rcases h1 with h1 | rfl
  · rcases h2 with h2 | rfl
    · exact Or.inl (keyLt_trans h1 h2)
    · exact Or.inl h1
  · exact h2

theorem keyLt_cons (x y : Nat) (xs ys : List Nat) :
    keyLt (x :: xs) (y :: ys) = true ↔ x < y ∨ (x = y ∧ keyLt xs ys = true) := by
  simp [keyLt]

theorem startsW_append (p r : List Nat) : startsW p (p ++ r) = true := by
  induction p with
  | nil => rfl
  | cons x xs ih => simp [startsW, ih]

theorem startsW_iff (p k : List Nat) : startsW p k = true ↔ ∃ r, k = p ++ r := by
  constructor
  · intro h
    induction p generalizing k with
    | nil => exact ⟨k, rfl⟩
    | cons x xs ih =>
      cases k with
      | nil => simp [startsW] at h
      | cons y ys =>
        simp only [startsW, Bool.and_eq_true, decide_eq_true_eq] at h
        obtain ⟨r, hr⟩ := ih ys h.2
        exact ⟨r, by rw [h.1, hr]; rfl⟩
  · rintro ⟨r, rfl⟩
    exact startsW_append p r

theorem keyLe_self_append (p r : List Nat) : keyLe p (p ++ r) = true := by
  induction p with
  | nil =>
    cases r with
    | nil => exact keyLe_refl []
    | cons y ys => simp [keyLe, keyLt]
  | cons x xs ih =>
    simp only [keyLe, List.cons_append, Bool.or_eq_true, decide_eq_true_eq, keyLt_cons,
      List.cons.injEq] at ih ⊢
    rcases ih with ih | ih
    · exact Or.inl (Or.inr ⟨trivial, ih⟩)
    · exact Or.inr ⟨trivial, ih⟩

theorem keyLe_of_startsW {p k : List Nat} (h : startsW p k = true) :
    keyLe p k = true := by
  obtain ⟨r, rfl⟩ := (startsW_iff p k).1 h
  exact keyLe_self_append p r

/-- Sandwich lemma: between two keys that extend prefix `p` (in particular
between `p` itself and any `p`-prefixed upper bound), every key also
extends `p`.  This is what makes a seek-then-take-while scan complete. -/
theorem startsW_of_between {p c b : List Nat} (h1 : keyLe p c = true)
    (h2 : keyLe c b = true) (hb : startsW p b = true) : startsW p c = true := by
  induction p generalizing c b with
  | nil => rfl
  | cons x xs ih =>
    cases b with
    | nil => simp [startsW] at hb
    | cons y ys =>
      simp only [startsW, Bool.and_eq_true, decide_eq_true_eq] at hb
      obtain ⟨rfl, hb2⟩ := hb
      cases c with
      | nil =>
        simp only [keyLe, keyLt, Bool.or_eq_true, decide_eq_true_eq] at h1
        rcases h1 with h1 | h1 <;> exact absurd h1 (by simp)
      | cons z zs =>
        simp only [keyLe, Bool.or_eq_true, decide_eq_true_eq, keyLt_cons,
          List.cons.injEq] at h1 h2
        have hxz : x = z ∧ keyLe xs zs = true := by
          rcases h1 with (h1 | ⟨rfl, h1⟩) | ⟨rfl, rfl⟩
          · rcases h2 with (h2 | ⟨rfl, h2⟩) | ⟨rfl, rfl⟩
            · omega
            · omega
            · omega
          · exact ⟨rfl, keyLe_of_keyLt h1⟩
          · exact ⟨rfl, keyLe_refl _⟩
        have hzy : keyLe zs ys = true := by
          rcases h2 with (h2 | ⟨he, h2⟩) | ⟨he, rfl⟩
          · omega
          · exact keyLe_of_keyLt h2
          · exact keyLe_refl _
        simp only [startsW, Bool.and_eq_true, decide_eq_true_eq]
        exact ⟨hxz.1, ih hxz.2 hzy hb2⟩

theorem toBE_length (n v : Nat) : (toBE n v).length = n := by
  induction n generalizing v with
  | zero => rfl
  | succ n ih => simp [toBE, ih]

theorem digit_lt_iff {E x y A B : Nat} (hA : A < E) (hB : B < E) :
    x * E + A < y * E + B ↔ x < y ∨ (x = y ∧ A < B) := by
  constructor
  · intro h
    rcases Nat.lt_trichotomy x y with hxy | hxy | hxy
    · exact Or.inl hxy
    · subst hxy; exact Or.inr ⟨rfl, by omega⟩
    · exfalso
      have hle : (y + 1) * E ≤ x * E := Nat.mul_le_mul_right E (Nat.succ_le_of_lt hxy)
      have : y * E + B < x * E + A := by
        calc y * E + B < y * E + E := by omega
          _ = (y + 1) * E := by ring
          _ ≤ x * E := hle
          _ ≤ x * E + A := Nat.le_add_right _ _
      omega
  · rintro (hxy | ⟨rfl, hab⟩)
    · have hle : (x + 1) * E ≤ y * E := Nat.mul_le_mul_right E (Nat.succ_le_of_lt hxy)
      calc x * E + A < x * E + E := by omega
        _ = (x + 1) * E := by ring
        _ ≤ y * E := hle
        _ ≤ y * E + B := Nat.le_add_right _ _
    · omega

theorem fromBE_lt {l : List Nat} (h : ∀ b ∈ l, b < 256) :
    fromBE l < 256 ^ l.length := by
  induction l with
  | nil => simp [fromBE]
  | cons x ls ih =>
    have hx : x < 256 := h x (List.mem_cons_self x ls)
    have hA : fromBE ls < 256 ^ ls.length := ih (fun b hb => h b (List.mem_cons_of_mem x hb))
    have hle : (x + 1) * 256 ^ ls.length ≤ 256 * 256 ^ ls.length :=
      Nat.mul_le_mul_right _ (Nat.succ_le_of_lt hx)
    calc fromBE (x :: ls) = x * 256 ^ ls.length + fromBE ls := rfl
      _ < x * 256 ^ ls.length + 256 ^ ls.length := by omega
      _ = (x + 1) * 256 ^ ls.length := by ring
      _ ≤ 256 * 256 ^ ls.length := hle
      _ = 256 ^ (x :: ls).length := by rw [List.length_cons]; ring

theorem fromBE_toBE {n v : Nat} (h : v < 256 ^ n) : fromBE (toBE n v) = v := by
  induction n generalizing v with
  | zero => interval_cases v; rfl
  | succ n ih =>
    have hE : 0 < 256 ^ n := Nat.pos_pow_of_pos n (by norm_num)
    have hmod : v % 256 ^ n < 256 ^ n := Nat.mod_lt v hE
    calc fromBE (toBE (n + 1) v)
        = v / 256 ^ n * 256 ^ (toBE n (v % 256 ^ n)).length + fromBE (toBE n (v % 256 ^ n)) := rfl
      _ = v / 256 ^ n * 256 ^ n + v % 256 ^ n := by rw [toBE_length, ih hmod]
      _ = v := by rw [Nat.mul_comm]; exact Nat.div_add_mod v (256 ^ n)

theorem toBE_bytes {n v : Nat} (h : v < 256 ^ n) : ∀ b ∈ toBE n v, b < 256 := by
  induction n generalizing v with
  | zero => intro b hb; simp [toBE] at hb
  | succ n ih =>
    intro b hb
    have hE : 0 < 256 ^ n := Nat.pos_pow_of_pos n (by norm_num)
    rcases List.mem_cons.1 hb with rfl | hb
    · have hlt : v < 256 ^ n * 256 := by rw [pow_succ] at h; exact h
      exact Nat.div_lt_of_lt_mul hlt
    · exact ih (Nat.mod_lt v hE) b hb

theorem toBE_fromBE {l : List Nat} (h : ∀ b ∈ l, b < 256) :
    toBE l.length (fromBE l) = l := by
  induction l with
  | nil => rfl
  | cons x ls ih =>
    have hA : fromBE ls < 256 ^ ls.length := fromBE_lt (fun b hb => h b (List.mem_cons_of_mem x hb))
    have hE : 0 < 256 ^ ls.length := Nat.pos_pow_of_pos _ (by norm_num)
    have hdiv : (x * 256 ^ ls.length + fromBE ls) / 256 ^ ls.length = x := by
      rw [Nat.mul_comm, Nat.mul_add_div hE, Nat.div_eq_of_lt hA, Nat.add_zero]
    have hmod : (x * 256 ^ ls.length + fromBE ls) % 256 ^ ls.length = fromBE ls := by
      rw [Nat.mul_comm, Nat.mul_add_mod, Nat.mod_eq_of_lt hA]
    calc toBE (ls.length + 1) (fromBE (x :: ls))
        = (x * 256 ^ ls.length + fromBE ls) / 256 ^ ls.length
            :: toBE ls.length ((x * 256 ^ ls.length + fromBE ls) % 256 ^ ls.length) := rfl
      _ = x :: toBE ls.length (fromBE ls) := by rw [hdiv, hmod]
      _ = x :: ls := by rw [ih (fun b hb => h b (List.mem_cons_of_mem x hb))]

theorem keyLt_fromBE {a b : List Nat} (hlen : a.length = b.length)
    (ha : ∀ x ∈ a, x < 256) (hb : ∀ x ∈ b, x < 256) :
    (keyLt a b = true ↔ fromBE a < fromBE b) := by
  induction a generalizing b with
  | nil =>
    cases b with
    | nil => simp [keyLt, fromBE]
    | cons y ys => simp at hlen
  | cons x xs ih =>
    cases b with
    | nil => simp at hlen
    | cons y ys =>
      have hlen' : xs.length = ys.length := by simpa using hlen
      have hxs : ∀ z ∈ xs, z < 256 := fun z hz => ha z (List.mem_cons_of_mem x hz)
      have hys : ∀ z ∈ ys, z < 256 := fun z hz => hb z (List.mem_cons_of_mem y hz)
      have hA : fromBE xs < 256 ^ xs.length := fromBE_lt hxs
      have hB : fromBE ys < 256 ^ xs.length := hlen' ▸ fromBE_lt hys
      rw [keyLt_cons]
      show x < y ∨ (x = y ∧ keyLt xs ys = true) ↔
        x * 256 ^ xs.length + fromBE xs < y * 256 ^ ys.length + fromBE ys
      rw [← hlen', digit_lt_iff hA hB, ih hlen' hxs hys]

theorem keyLt_toBE {n v w : Nat} (hv : v < 256 ^ n) (hw : w < 256 ^ n) :
    (keyLt (toBE n v) (toBE n w) = true ↔ v < w) := by
  rw [keyLt_fromBE (by rw [toBE_length, toBE_length]) (toBE_bytes hv) (toBE_bytes hw),
    fromBE_toBE hv, fromBE_toBE hw]

theorem toBE_inj {n v w : Nat} (hv : v < 256 ^ n) (hw : w < 256 ^ n)
    (h : toBE n v = toBE n w) : v = w := by
  have := fromBE_toBE hv
  rw [h, fromBE_toBE hw] at this
  omega

theorem keyLt_append_eqlen {a b r s : List Nat} (hlen : a.length = b.length) :
    (keyLt (a ++ r) (b ++ s) = true ↔
      keyLt a b = true ∨ (a = b ∧ keyLt r s = true)) := by
  induction a generalizing b with
  | nil =>
    cases b with
    | nil => simp [keyLt]
    | cons y ys => simp at hlen
  | cons x xs ih =>
    cases b with
    | nil => simp at hlen
    | cons y ys =>
      have hlen' : xs.length = ys.length := by simpa using hlen
      simp only [List.cons_append, keyLt_cons, ih hlen', List.cons.injEq]
      tauto

theorem take_len_append (l r : List Nat) : (l ++ r).take l.length = l := by
  induction l with
  | nil => rfl
  | cons x xs ih => simp [ih]

theorem drop_len_append (l r : List Nat) : (l ++ r).drop l.length = r := by
  induction l with
  | nil => rfl
  | cons x xs ih => simp [ih]

theorem two_pow_128_eq : (2 : Nat) ^ 128 = 256 ^ 16 := by norm_num

theorem two_pow_64_eq : (2 : Nat) ^ 64 = 256 ^ 8 := by norm_num

theorem encUuid_length (u : Nat) : (encUuid u).length = 16 := toBE_length 16 u

theorem encDt_length (d : Nat) : (encDt d).length = 8 := toBE_length 8 _

theorem encTy_length (t : List Nat) : (encTy t).length = t.length + 1 := by
  simp [encTy]

theorem encUuid_bytes {u : Nat} (h : UuidLegal u) : ∀ b ∈ encUuid u, b < 256 := by
  apply toBE_bytes
  rw [← two_pow_128_eq]
  exact h

theorem encDt_bytes (d : Nat) : ∀ b ∈ encDt d, b < 256 := by
  apply toBE_bytes
  have : U64MAX - d ≤ U64MAX := Nat.sub_le _ _
  have h64 : U64MAX < 256 ^ 8 := by rw [← two_pow_64_eq]; simp [U64MAX]
  omega

theorem encTy_bytes {t : List Nat} (h : TyLegal t) : ∀ b ∈ encTy t, b < 256 := by
  intro b hb
  have h' : 1 ≤ t.length ∧ t.length ≤ 255 ∧ ∀ b ∈ t, b < 256 := h
  rcases List.mem_cons.1 hb with rfl | hb
  · omega
  · exact h'.2.2 b hb

theorem fromBE_encUuid {u : Nat} (h : UuidLegal u) : fromBE (encUuid u) = u := by
  have hu : u < 256 ^ 16 := by rw [← two_pow_128_eq]; exact h
  exact fromBE_toBE hu

theorem take_16_encUuid (u : Nat) : (encUuid u).take 16 = encUuid u := by
  rw [← encUuid_length u]
  exact List.take_length _

theorem read_uuid_enc {u : Nat} (h : UuidLegal u) (r : List Nat) :
    read_uuid (encUuid u ++ r) = (u, r) := by
  have h16 : (encUuid u).length = 16 := encUuid_length u
  have ht : (encUuid u ++ r).take 16 = encUuid u := by
    rw [← h16]; exact take_len_append _ _
  have hd : (encUuid u ++ r).drop 16 = r := by
    rw [← h16]; exact drop_len_append _ _
  simp only [read_uuid, ht, hd, fromBE_encUuid h]

theorem read_type_enc (t r : List Nat) : read_type (encTy t ++ r) = (t, r) := by
  show read_type (t.length :: (t ++ r)) = (t, r)
  simp [read_type, take_len_append, drop_len_append]

theorem read_datetime_enc {d : Nat} (h : DtLegal d) (r : List Nat) :
    read_datetime (encDt d ++ r) = (d, r) := by
  have h8 : (encDt d).length = 8 := encDt_length d
  have ht : (encDt d ++ r).take 8 = encDt d := by
    rw [← h8]; exact take_len_append _ _
  have hd : (encDt d ++ r).drop 8 = r := by
    rw [← h8]; exact drop_len_append _ _
  have hlt : U64MAX - d < 256 ^ 8 := by
    have h64 : U64MAX < 256 ^ 8 := by rw [← two_pow_64_eq]; simp [U64MAX]
    omega
  have : fromBE (encDt d) = U64MAX - d := fromBE_toBE hlt
  simp only [read_datetime, ht, hd, this]
  have hdle : d ≤ U64MAX := h
  congr 1
  omega

theorem build_cons (c : Component) (cs : List Component) :
    build (c :: cs) = c.enc ++ build cs := by
  simp [build]

theorem build_nil : build [] = [] := rfl

theorem build_one (c : Component) : build [c] = c.enc := by
  simp [build]

theorem decodeRangeKey_key {f : Nat} {t : List Nat} {d : Nat} {s : Nat}
    (hf : UuidLegal f) (hd : DtLegal d) (hs : UuidLegal s) :
    decodeRangeKey (EdgeRangeManager.key f t d s) = (f, t, d, s) := by
  have hk : EdgeRangeManager.key f t d s
      = encUuid f ++ (encTy t ++ (encDt d ++ (encUuid s ++ []))) := by
    simp [EdgeRangeManager.key, build, Component.enc]
  rw [decodeRangeKey, hk, read_uuid_enc hf, read_type_enc, read_datetime_enc hd]
  simp [read_uuid, take_16_encUuid, fromBE_encUuid hs]

theorem decodeEdgeKey_key {o : Nat} {t : List Nat} {i : Nat} (ho : UuidLegal o)
    (hi : UuidLegal i) :
    decodeEdgeKey (EdgeManager.key o t i) = (o, t, i) := by
  have hk : EdgeManager.key o t i = encUuid o ++ (encTy t ++ (encUuid i ++ [])) := by
    simp [EdgeManager.key, build, Component.enc]
  rw [decodeEdgeKey, hk, read_uuid_enc ho, read_type_enc]
  simp [read_uuid, take_16_encUuid, fromBE_encUuid hi]

theorem decodeVpKey_key {v : Nat} {name : List Nat} (hv : UuidLegal v) :
    decodeVpKey (VertexPropertyManager.key v name) = (v, name) := by
  have hk : VertexPropertyManager.key v name = encUuid v ++ (name ++ []) := by
    simp [VertexPropertyManager.key, build, Component.enc]
  rw [decodeVpKey, hk, read_uuid_enc hv]
  simp [read_unsized_string]

theorem decodeEpKey_key {o : Nat} {t : List Nat} {i : Nat} {name : List Nat}
    (ho : UuidLegal o) (hi : UuidLegal i) :
    decodeEpKey (EdgePropertyManager.key o t i name) = (o, t, i, name) := by
  have hk : EdgePropertyManager.key o t i name
      = encUuid o ++ (encTy t ++ (encUuid i ++ (name ++ []))) := by
    simp [EdgePropertyManager.key, build, Component.enc]
  rw [decodeEpKey, hk, read_uuid_enc ho, read_type_enc, read_uuid_enc hi]
  simp [read_unsized_string]

theorem cfGet_eq_none_of_forall_gt {cf : Cf} {x : List Nat}
    (h : ∀ b ∈ cf, keyLt x b.1 = true) : cfGet cf x = none := by
  induction cf with
  | nil => rfl
  | cons e rest ih =>
    obtain ⟨k', v'⟩ := e
    by_cases hk : k' = x
    · subst hk
      have := h (k', v') (List.mem_cons_self _ _)
      rw [keyLt_irrefl] at this
      exact Bool.noConfusion this
    · simp only [cfGet, if_neg hk]
      exact ih (fun b hb => h b (List.mem_cons_of_mem _ hb))

theorem cfGet_cfPut_self (cf : Cf) (k v : List Nat) :
    cfGet (cfPut cf k v) k = some v := by
  induction cf with
  | nil => simp [cfPut, cfGet]
  | cons e rest ih =>
    obtain ⟨k', v'⟩ := e
    by_cases h1 : keyLt k k' = true
    · simp [cfPut, h1, cfGet]
    · by_cases h2 : k = k'
      · simp [cfPut, h1, h2, cfGet, keyLt_irrefl]
      · have hne : k' ≠ k := fun hh => h2 hh.symm
        simp [cfPut, h1, h2, cfGet, hne, ih]

theorem cfGet_cfPut_ne {q k : List Nat} (cf : Cf) (v : List Nat) (hq : q ≠ k) :
    cfGet (cfPut cf k v) q = cfGet cf q := by
  have hkq : k ≠ q := fun hh => hq hh.symm
  induction cf with
  | nil => simp [cfPut, cfGet, hkq]
  | cons e rest ih =>
    obtain ⟨k', v'⟩ := e
    by_cases h1 : keyLt k k' = true
    · simp [cfPut, h1, cfGet, hkq]
    · by_cases h2 : k = k'
      · subst h2
        simp [cfPut, h1, cfGet, hkq]
      · simp only [cfPut, h1, if_false, if_neg h2, cfGet]
        by_cases hq' : k' = q
        · simp [hq']
        · simp [hq', ih]

theorem cfGet_cfDel_self {cf : Cf} (k : List Nat) (h : CfSorted cf) :
    cfGet (cfDel cf k) k = none := by
  induction cf with
  | nil => rfl
  | cons e rest ih =>
    obtain ⟨k', v'⟩ := e
    have hrest : CfSorted rest := (List.pairwise_cons.1 h).2
    have hhead : ∀ b ∈ rest, keyLt k' b.1 = true := (List.pairwise_cons.1 h).1
    by_cases h1 : k = k'
    · subst h1
      simp only [cfDel, if_pos rfl]
      exact cfGet_eq_none_of_forall_gt hhead
    · have hne : k' ≠ k := fun hh => h1 hh.symm
      simp only [cfDel, if_neg h1, cfGet, if_neg hne]
      exact ih hrest

theorem cfGet_cfDel_ne {q k : List Nat} (cf : Cf) (hq : q ≠ k) :
    cfGet (cfDel cf k) q = cfGet cf q := by
  induction cf with
  | nil => rfl
  | cons e rest ih =>
    obtain ⟨k', v'⟩ := e
    by_cases h1 : k = k'
    · subst h1
      have hne : k ≠ q := fun hh => hq hh.symm
      simp [cfDel, cfGet, hne]
    · simp only [cfDel, if_neg h1, cfGet]
      by_cases hq' : k' = q
      · simp [hq']
      · simp [hq', ih]

theorem mem_of_cfGet_some {cf : Cf} {k v : List Nat} (h : cfGet cf k = some v) :
    (k, v) ∈ cf := by
  induction cf with
  | nil => simp [cfGet] at h
  | cons e rest ih =>
    obtain ⟨k', v'⟩ := e
    by_cases h1 : k' = k
    · have h2 : v' = v := by simpa [cfGet, h1] using h
      subst h1
      subst h2
      exact List.mem_cons_self _ _
    · have h' : cfGet rest k = some v := by simpa [cfGet, h1] using h
      exact List.mem_cons_of_mem _ (ih h')

theorem cfGet_some_of_mem {cf : Cf} {k v : List Nat} (hs : CfSorted cf)
    (h : (k, v) ∈ cf) : cfGet cf k = some v := by
  induction cf with
  | nil => simp at h
  | cons e rest ih =>
    obtain ⟨k', v'⟩ := e
    have hrest : CfSorted rest := (List.pairwise_cons.1 hs).2
    have hhead : ∀ b ∈ rest, keyLt k' b.1 = true := (List.pairwise_cons.1 hs).1
    rcases List.mem_cons.1 h with he | hm
    · injection he with h1 h2
      subst h1
      subst h2
      simp [cfGet]
    · by_cases h1 : k' = k
      · subst h1
        have := hhead (k', v) hm
        rw [keyLt_irrefl] at this
        exact Bool.noConfusion this
      · simp only [cfGet, if_neg h1]
        exact ih hrest hm

theorem mem_cfPut_subset {cf : Cf} {k v : List Nat} {e : Row}
    (h : e ∈ cfPut cf k v) : e = (k, v) ∨ e ∈ cf := by
  induction cf with
  | nil => simpa [cfPut] using h
  | cons e' rest ih =>
    obtain ⟨k', v'⟩ := e'
    by_cases h1 : keyLt k k' = true
    · simp only [cfPut, if_pos h1] at h
      rcases List.mem_cons.1 h with rfl | h
      · exact Or.inl rfl
      · exact Or.inr h
    · by_cases h2 : k = k'
      · simp only [cfPut, if_neg h1, if_pos h2] at h
        rcases List.mem_cons.1 h with rfl | h
        · exact Or.inl rfl
        · exact Or.inr (List.mem_cons_of_mem _ h)
      · simp only [cfPut, if_neg h1, if_neg h2] at h
        rcases List.mem_cons.1 h with rfl | h
        · exact Or.inr (List.mem_cons_self _ _)
        · rcases ih h with h | h
          · exact Or.inl h
          · exact Or.inr (List.mem_cons_of_mem _ h)

theorem cfDel_sublist (cf : Cf) (k : List Nat) : (cfDel cf k).Sublist cf := by
  induction cf with
  | nil => exact List.Sublist.refl _
  | cons e rest ih =>
    obtain ⟨k', v'⟩ := e
    by_cases h1 : k = k'
    · simp only [cfDel, if_pos h1]
      exact List.sublist_cons_self _ _
    · simp only [cfDel, if_neg h1]
      exact List.Sublist.cons₂ _ ih

theorem sorted_cfDel {cf : Cf} (k : List Nat) (h : CfSorted cf) :
    CfSorted (cfDel cf k) := h.sublist (cfDel_sublist cf k)

theorem keyLt_of_not_lt_not_eq {a b : List Nat} (h1 : ¬keyLt a b = true)
    (h2 : a ≠ b) : keyLt b a = true := by
  rcases keyLt_total a b with h | h | h
  · exact absurd h h1
  · exact absurd h h2
  · exact h

theorem sorted_cfPut {cf : Cf} (k v : List Nat) (h : CfSorted cf) :
    CfSorted (cfPut cf k v) := by
  induction cf with
  | nil => simp [cfPut, CfSorted]
  | cons e rest ih =>
    obtain ⟨k', v'⟩ := e
    have hrest : CfSorted rest := (List.pairwise_cons.1 h).2
    have hhead : ∀ b ∈ rest, keyLt k' b.1 = true := (List.pairwise_cons.1 h).1
    by_cases h1 : keyLt k k' = true
    · simp only [cfPut, if_pos h1, CfSorted]
      refine List.Pairwise.cons ?_ h
      intro b hb
      rcases List.mem_cons.1 hb with rfl | hb
      · exact h1
      · exact keyLt_trans h1 (hhead b hb)
    · by_cases h2 : k = k'
      · subst h2
        simp only [cfPut, if_neg h1, if_pos rfl, CfSorted]
        exact List.Pairwise.cons hhead hrest
      · simp only [cfPut, if_neg h1, if_neg h2, CfSorted]
        refine List.Pairwise.cons ?_ (ih hrest)
        intro b hb
        rcases mem_cfPut_subset hb with rfl | hb
        · exact keyLt_of_not_lt_not_eq h1 h2
        · exact hhead b hb

theorem mem_cfPut_iff {cf : Cf} {k v : List Nat} {e : Row} (hs : CfSorted cf) :
    e ∈ cfPut cf k v ↔ e = (k, v) ∨ (e ∈ cf ∧ e.1 ≠ k) := by
  obtain ⟨a, b⟩ := e
  constructor
  · intro h
    have hget : cfGet (cfPut cf k v) a = some b := cfGet_some_of_mem (sorted_cfPut k v hs) h
    by_cases ha : a = k
    · subst ha
      rw [cfGet_cfPut_self] at hget
      injection hget with hv
      exact Or.inl (by rw [hv])
    · rw [cfGet_cfPut_ne cf v ha] at hget
      exact Or.inr ⟨mem_of_cfGet_some hget, ha⟩
  · intro h
    rcases h with he | ⟨hm, hne⟩
    · injection he with h1 h2
      subst h1
      subst h2
      exact mem_of_cfGet_some (cfGet_cfPut_self cf _ _)
    · refine mem_of_cfGet_some ?_
      rw [cfGet_cfPut_ne cf v hne]
      exact cfGet_some_of_mem hs hm

theorem mem_cfDel_iff {cf : Cf} {k : List Nat} {e : Row} (hs : CfSorted cf) :
    e ∈ cfDel cf k ↔ e ∈ cf ∧ e.1 ≠ k := by
  obtain ⟨a, b⟩ := e
  constructor
  · intro h
    have hget : cfGet (cfDel cf k) a = some b := cfGet_some_of_mem (sorted_cfDel k hs) h
    by_cases ha : a = k
    · subst ha
      rw [cfGet_cfDel_self _ hs] at hget
      exact Option.noConfusion hget
    · rw [cfGet_cfDel_ne cf ha] at hget
      exact ⟨mem_of_cfGet_some hget, ha⟩
  · rintro ⟨hm, hne⟩
    refine mem_of_cfGet_some ?_
    rw [cfGet_cfDel_ne cf hne]
    exact cfGet_some_of_mem hs hm

theorem startsW_refl (p : List Nat) : startsW p p = true := by
  have := startsW_append p []
  rwa [List.append_nil] at this

/-- Completeness of a seek-then-take-while scan over a sorted family:
starting the iterator at `low` (itself extending `pfx`) and yielding while
the key extends `pfx` returns exactly the rows whose key is at or after
`low` and extends `pfx`. -/
theorem scanFrom_eq_filter {cf : Cf} {pfx low : List Nat} (hs : CfSorted cf)
    (hlow : startsW pfx low = true) :
    takeWhilePrefixed (iterFrom cf low) pfx
      = cf.filter (fun e => keyLe low e.1 && startsW pfx e.1) := by
  induction cf with
  | nil => rfl
  | cons e rest ih =>
    obtain ⟨k, v⟩ := e
    have hrest : CfSorted rest := (List.pairwise_cons.1 hs).2
    have hhead : ∀ b ∈ rest, keyLt k b.1 = true := (List.pairwise_cons.1 hs).1
    by_cases hk : keyLe low k = true
    · have hiter : iterFrom ((k, v) :: rest) low = (k, v) :: iterFrom rest low := by
        simp [iterFrom, List.filter_cons, hk]
      by_cases hp : startsW pfx k = true
      · have hfil : ((k, v) :: rest).filter (fun e => keyLe low e.1 && startsW pfx e.1)
            = (k, v) :: rest.filter (fun e => keyLe low e.1 && startsW pfx e.1) := by
          simp [List.filter_cons, hk, hp]
        have htake : takeWhilePrefixed ((k, v) :: iterFrom rest low) pfx
            = (k, v) :: takeWhilePrefixed (iterFrom rest low) pfx := by
          simp [takeWhilePrefixed, List.takeWhile_cons, hp]
        rw [hiter, htake, hfil, ih hrest]
      · have hpf : startsW pfx k = false := by
          cases hpp : startsW pfx k
          · rfl
          · exact absurd hpp hp
        have hrest_none : rest.filter (fun e => keyLe low e.1 && startsW pfx e.1) = [] := by
          rw [List.filter_eq_nil_iff]
          intro b hb hcond
          have hcond' : keyLe low b.1 = true ∧ startsW pfx b.1 = true := by
            simpa using hcond
          have hple : keyLe pfx k = true := keyLe_trans (keyLe_of_startsW hlow) hk
          have hkb : keyLe k b.1 = true := keyLe_of_keyLt (hhead b hb)
          rw [startsW_of_between hple hkb hcond'.2] at hpf
          exact Bool.noConfusion hpf
        have hfil : ((k, v) :: rest).filter (fun e => keyLe low e.1 && startsW pfx e.1) = [] := by
          simp [List.filter_cons, hpf, hrest_none]
        have htake : takeWhilePrefixed ((k, v) :: iterFrom rest low) pfx = [] := by
          simp [takeWhilePrefixed, List.takeWhile_cons, hpf]
        rw [hiter, htake, hfil]
    · have hkf : keyLe low k = false := by
        cases hkk : keyLe low k
        · rfl
        · exact absurd hkk hk
      have hiter : iterFrom ((k, v) :: rest) low = iterFrom rest low := by
        simp [iterFrom, List.filter_cons, hkf]
      have hfil : ((k, v) :: rest).filter (fun e => keyLe low e.1 && startsW pfx e.1)
          = rest.filter (fun e => keyLe low e.1 && startsW pfx e.1) := by
        simp [List.filter_cons, hkf]
      rw [hiter, hfil, ih hrest]

/-- Special case: seeking at the prefix itself yields exactly the
prefixed rows. -/
theorem scan_eq_filter {cf : Cf} {pfx : List Nat} (hs : CfSorted cf) :
    takeWhilePrefixed (iterFrom cf pfx) pfx
      = cf.filter (fun e => startsW pfx e.1) := by
  rw [scanFrom_eq_filter hs (startsW_refl pfx)]
  have hfun : ∀ e : Row, (keyLe pfx e.1 && startsW pfx e.1) = startsW pfx e.1 := by
    intro e
    cases hsw : startsW pfx e.1
    · simp
    · simp [keyLe_of_startsW hsw]
  exact List.filter_congr (fun e _ => hfun e)

theorem cf_setCf (db : Db) (c c' : CfId) (cf : Cf) :
    (db.setCf c' cf).cf c = if c = c' then cf else db.cf c := by
  cases c <;> cases c' <;> simp [Db.setCf, Db.cf]

/-- Commit acts on each column family independently, via the actions the
batch stages on it. -/
theorem commit_cf (ops : List BatchOp) (db : Db) (c : CfId) :
    (commit db ops).cf c = applyActs (db.cf c) (cfActs c ops) := by
  induction ops generalizing db with
  | nil => rfl
  | cons op rest ih =>
    have hstep : commit db (op :: rest) = commit (applyOp db op) rest := rfl
    cases op with
    | put c' k v =>
      by_cases hc : c' = c
      · subst hc
        rw [hstep, ih, cfActs]
        simp [applyOp, cf_setCf, applyActs]
      · rw [hstep, ih, cfActs]
        have hc' : ¬c = c' := fun hh => hc hh.symm
        simp [applyOp, cf_setCf, hc, hc']
    | del c' k =>
      by_cases hc : c' = c
      · subst hc
        rw [hstep, ih, cfActs]
        simp [applyOp, cf_setCf, applyActs]
      · rw [hstep, ih, cfActs]
        have hc' : ¬c = c' := fun hh => hc hh.symm
        simp [applyOp, cf_setCf, hc, hc']

theorem sorted_applyActs {cf : Cf} (acts : List (List Nat × Option (List Nat)))
    (hs : CfSorted cf) : CfSorted (applyActs cf acts) := by
  induction acts generalizing cf with
  | nil => exact hs
  | cons a rest ih =>
    obtain ⟨k, ov⟩ := a
    cases ov with
    | some v => exact ih (sorted_cfPut k v hs)
    | none => exact ih (sorted_cfDel k hs)

theorem commit_sorted {db : Db} (ops : List BatchOp) (hs : DbSorted db) :
    DbSorted (commit db ops) := by
  intro c
  rw [commit_cf]
  exact sorted_applyActs _ (hs c)

theorem cfGet_applyActs_delOnly {cf : Cf} {acts : List (List Nat × Option (List Nat))}
    (hs : CfSorted cf) (hdel : ∀ a ∈ acts, a.2 = (none : Option (List Nat)))
    (q : List Nat) :
    cfGet (applyActs cf acts) q
      = if q ∈ acts.map Prod.fst then none else cfGet cf q := by
  induction acts generalizing cf with
  | nil => simp [applyActs]
  | cons a rest ih =>
    obtain ⟨k, ov⟩ := a
    have hov : ov = none := hdel (k, ov) (List.mem_cons_self _ _)
    subst hov
    have hrest : ∀ a ∈ rest, a.2 = (none : Option (List Nat)) :=
      fun a ha => hdel a (List.mem_cons_of_mem _ ha)
    show cfGet (applyActs (cfDel cf k) rest) q = _
    rw [ih (sorted_cfDel k hs) hrest]
    by_cases hq1 : q ∈ rest.map Prod.fst
    · simp [hq1]
    · by_cases hq2 : q = k
      · subst hq2
        simp [hq1, cfGet_cfDel_self _ hs]
      · simp [hq1, hq2, cfGet_cfDel_ne cf hq2]

theorem mem_applyActs_delOnly {cf : Cf} {acts : List (List Nat × Option (List Nat))}
    (hs : CfSorted cf) (hdel : ∀ a ∈ acts, a.2 = (none : Option (List Nat)))
    (e : Row) :
    e ∈ applyActs cf acts ↔ e ∈ cf ∧ e.1 ∉ acts.map Prod.fst := by
  induction acts generalizing cf with
  | nil => simp [applyActs]
  | cons a rest ih =>
    obtain ⟨k, ov⟩ := a
    have hov : ov = none := hdel (k, ov) (List.mem_cons_self _ _)
    subst hov
    have hrest : ∀ a ∈ rest, a.2 = (none : Option (List Nat)) :=
      fun a ha => hdel a (List.mem_cons_of_mem _ ha)
    show e ∈ applyActs (cfDel cf k) rest ↔ _
    rw [ih (sorted_cfDel k hs) hrest, mem_cfDel_iff hs]
    simp only [List.map_cons, List.mem_cons]
    tauto

theorem EdgeKeyOk_iff (k : List Nat) :
    EdgeKeyOk k ↔ ∃ o t i, UuidLegal o ∧ TyLegal t ∧ UuidLegal i ∧
      k = EdgeManager.key o t i := by
  constructor
  · intro h
    exact ⟨_, _, _, h.1, h.2.1, h.2.2.1, h.2.2.2⟩
  · rintro ⟨o, t, i, ho, ht, hi, rfl⟩
    unfold EdgeKeyOk
    rw [decodeEdgeKey_key ho hi]
    exact ⟨ho, ht, hi, rfl⟩

theorem DtValOk_iff (v : List Nat) :
    DtValOk v ↔ ∃ d, DtLegal d ∧ v = encDt d := by
  constructor
  · intro h
    exact ⟨_, h.1, h.2⟩
  · rintro ⟨d, hd, rfl⟩
    unfold DtValOk
    have : read_datetime (encDt d) = (d, []) := by
      have := read_datetime_enc hd []
      rwa [List.append_nil] at this
    rw [this]
    exact ⟨hd, rfl⟩

theorem RangeKeyOk_iff (k : List Nat) :
    RangeKeyOk k ↔ ∃ f t d s, UuidLegal f ∧ TyLegal t ∧ DtLegal d ∧ UuidLegal s ∧
      k = EdgeRangeManager.key f t d s := by
  constructor
  · intro h
    exact ⟨_, _, _, _, h.1, h.2.1, h.2.2.1, h.2.2.2.1, h.2.2.2.2⟩
  · rintro ⟨f, t, d, s, hf, ht, hd, hs, rfl⟩
    unfold RangeKeyOk
    rw [decodeRangeKey_key hf hd hs]
    exact ⟨hf, ht, hd, hs, rfl⟩

theorem encDt_inj {d d' : Nat} (hd : DtLegal d) (hd' : DtLegal d')
    (h : encDt d = encDt d') : d = d' := by
  have h64 : U64MAX < 256 ^ 8 := by rw [← two_pow_64_eq]; simp [U64MAX]
  have h1 : U64MAX - d < 256 ^ 8 := by omega
  have h2 : U64MAX - d' < 256 ^ 8 := by omega
  have := toBE_inj h1 h2 h
  have hdle : d ≤ U64MAX := hd
  have hdle' : d' ≤ U64MAX := hd'
  omega

theorem encUuid_inj {u u' : Nat} (hu : UuidLegal u) (hu' : UuidLegal u')
    (h : encUuid u = encUuid u') : u = u' := by
  have := fromBE_encUuid hu
  rw [h, fromBE_encUuid hu'] at this
  omega

theorem EdgeManager.edge_key_inj {o o' : Nat} {t t' : List Nat} {i i' : Nat}
    (ho : UuidLegal o) (hi : UuidLegal i) (ho' : UuidLegal o') (hi' : UuidLegal i')
    (h : EdgeManager.key o t i = EdgeManager.key o' t' i') :
    o = o' ∧ t = t' ∧ i = i' := by
  have h1 := @decodeEdgeKey_key o t i ho hi
  rw [h, @decodeEdgeKey_key o' t' i' ho' hi'] at h1
  injection h1 with e1 e2
  injection e2 with e2 e3
  exact ⟨e1.symm, e2.symm, e3.symm⟩

theorem EdgeRangeManager.range_key_inj {f f' : Nat} {t t' : List Nat} {d d' : Nat}
    {s s' : Nat} (hf : UuidLegal f) (hd : DtLegal d) (hs : UuidLegal s)
    (hf' : UuidLegal f') (hd' : DtLegal d') (hs' : UuidLegal s')
    (h : EdgeRangeManager.key f t d s = EdgeRangeManager.key f' t' d' s') :
    f = f' ∧ t = t' ∧ d = d' ∧ s = s' := by
  have h1 := @decodeRangeKey_key f t d s hf hd hs
  rw [h, @decodeRangeKey_key f' t' d' s' hf' hd' hs'] at h1
  injection h1 with e1 e2
  injection e2 with e2 e3
  injection e3 with e3 e4
  exact ⟨e1.symm, e2.symm, e3.symm, e4.symm⟩

theorem read_type_build (t : List Nat) : (read_type (build [Component.ty t])).1 = t := by
  have h : build [Component.ty t] = encTy t := by simp [build, Component.enc]
  rw [h]
  simp [read_type, encTy]

theorem decodeRangeKey_startsW {id : Nat} {t k : List Nat} (hid : UuidLegal id)
    (h : startsW (build [Component.uuid id, Component.ty t]) k = true) :
    (decodeRangeKey k).1 = id ∧ (decodeRangeKey k).2.1 = t := by
  obtain ⟨rest, hk⟩ := (startsW_iff _ _).1 h
  have hk' : k = encUuid id ++ (encTy t ++ rest) := by
    rw [hk]; simp [build, Component.enc]
  simp [decodeRangeKey, hk', read_uuid_enc hid, read_type_enc]

/-- C8: `VertexManager.create` stages `key = UUID(id), value = Type(t)`
without reading the store; after the batch commits, `get id` returns the
type and `exists id` is true — for every prior store, so in particular
whether or not a vertex row for `id` existed, creation overwrites it
(idempotent upsert). -/
theorem C8_create_get_roundtrip (db : Db) (id : Nat) (t : List Nat) :
    VertexManager.get (commit db (VertexManager.create id t)) id = .ok (some t)
    ∧ VertexManager.existsVertex (commit db (VertexManager.create id t)) id = .ok true := by
  have hdb : (commit db (VertexManager.create id t)).vertices
      = cfPut db.vertices (VertexManager.key id) (build [Component.ty t]) := rfl
  have hget : cfGet (commit db (VertexManager.create id t)).vertices (VertexManager.key id)
      = some (build [Component.ty t]) := by
    rw [hdb]
    exact cfGet_cfPut_self _ _ _
  constructor
  · simp only [VertexManager.get, hget, read_type_build]
  · simp only [VertexManager.existsVertex, hget, Option.isSome_some]

/-- C9: absence is an optional success, never an error: a lookup of a
missing vertex, edge, vertex property, or edge property returns
`Ok(None)`. -/
theorem C9_absence_is_ok_none (db : Db) (id o i : Nat) (t name : List Nat)
    (hv : cfGet db.vertices (VertexManager.key id) = none)
    (he : cfGet db.edges (EdgeManager.key o t i) = none)
    (hvp : cfGet db.vertex_properties (VertexPropertyManager.key id name) = none)
    (hep : cfGet db.edge_properties (EdgePropertyManager.key o t i name) = none) :
    VertexManager.get db id = .ok none
    ∧ EdgeManager.get db o t i = .ok none
    ∧ VertexPropertyManager.get db id name = .ok none
    ∧ EdgePropertyManager.get db o t i name = .ok none := by
  refine ⟨?_, ?_, ?_, ?_⟩
  · simp only [VertexManager.get, hv]
  · simp only [EdgeManager.get, he]
  · simp only [VertexPropertyManager.get, hvp]
  · simp only [EdgePropertyManager.get, hep]

theorem C9_absence_witness :
    cfGet (⟨[], [], [], [], [], []⟩ : Db).vertices (VertexManager.key 1) = none
    ∧ (VertexManager.get ⟨[], [], [], [], [], []⟩ 1 = .ok none
      ∧ EdgeManager.get ⟨[], [], [], [], [], []⟩ 1 [116] 2 = .ok none
      ∧ VertexPropertyManager.get ⟨[], [], [], [], [], []⟩ 1 [110] = .ok none
      ∧ EdgePropertyManager.get ⟨[], [], [], [], [], []⟩ 1 [116] 2 [110] = .ok none) :=
  ⟨rfl, C9_absence_is_ok_none ⟨[], [], [], [], [], []⟩ 1 1 2 [116] [110] rfl rfl rfl rfl⟩

/-- C10: the in-memory timestamp filter used by
`iterate_for_range(id, None, Some(high))` (which is, definitionally, the
post-decode `timeFilter` applied to the prefix scan) keeps every error
item unchanged, drops exactly the successfully decoded items with
`update_datetime > high`, and introduces nothing. -/
theorem C10_time_filter_error_transparent (db : Db) (c : CfId) (id high : Nat)
    (items : List (Except DbErr EdgeRangeItem)) :
    EdgeRangeManager.iterateForRange db c id none (some high)
      = timeFilter high
          (EdgeRangeManager.iterate (iterFrom (db.cf c) (build [Component.uuid id]))
            (build [Component.uuid id]))
    ∧ (∀ e : DbErr, Except.error e ∈ items → Except.error e ∈ timeFilter high items)
    ∧ (∀ item ∈ items, item ∉ timeFilter high items →
        ∃ f t d s, item = Except.ok (f, t, d, s) ∧ high < d)
    ∧ (∀ item ∈ timeFilter high items, item ∈ items) := by
  refine ⟨rfl, ?_, ?_, ?_⟩
  · intro e he
    exact List.mem_filter.2 ⟨he, rfl⟩
  · intro item hmem hnot
    match item with
    | .ok (f, t, d, s) =>
      by_cases hd : d ≤ high
      · exact absurd (List.mem_filter.2 ⟨hmem, by simpa [timeFilter] using hd⟩) hnot
      · exact ⟨f, t, d, s, rfl, by omega⟩
    | .error e => exact absurd (List.mem_filter.2 ⟨hmem, rfl⟩) hnot
  · intro item hmem
    exact (List.mem_filter.1 hmem).1

theorem C10_time_filter_witness :
    Except.error DbErr.storeFailure
      ∈ timeFilter 3 [Except.error DbErr.storeFailure,
          (Except.ok (0, [], 5, 0) : Except DbErr EdgeRangeItem)] :=
  (C10_time_filter_error_transparent ⟨[], [], [], [], [], []⟩ CfId.edgeRanges 0 3
      [Except.error DbErr.storeFailure, Except.ok (0, [], 5, 0)]).2.1
    DbErr.storeFailure (List.mem_cons_self _ _)

/-- C6: every row yielded by `iterate_for_range(id, None, Some(high))`
has `update_datetime ≤ high` — the in-memory filter enforces the bound. -/
theorem C6_untyped_time_bound (db : Db) (c : CfId) (id high : Nat)
    (f s d : Nat) (t : List Nat)
    (hm : Except.ok (f, t, d, s)
      ∈ EdgeRangeManager.iterateForRange db c id none (some high)) :
    d ≤ high := by
  simp only [EdgeRangeManager.iterateForRange] at hm
  have := (List.mem_filter.1 hm).2
  simpa [timeFilter] using this

/-- C5: every row yielded by `iterate_for_range(id, Some(t), None)` has
`first_id = id` and type `t`: the seek lands inside the `(id, t)` prefix
block and the take-while stops at its end. -/
theorem C5_range_scan_prefix_closure (db : Db) (c : CfId) (id : Nat) (t : List Nat)
    (hid : UuidLegal id) :
    ∀ item ∈ EdgeRangeManager.iterateForRange db c id (some t) none,
      ∃ d s, item = Except.ok (id, t, d, s) := by
  intro item hm
  simp only [EdgeRangeManager.iterateForRange, EdgeRangeManager.iterate] at hm
  rw [List.mem_map] at hm
  obtain ⟨row, hrow, rfl⟩ := hm
  have hpfx : startsW (build [Component.uuid id, Component.ty t]) row.1 = true := by
    have := List.mem_takeWhile_imp hrow
    simpa using this
  obtain ⟨hf, ht'⟩ := decodeRangeKey_startsW hid hpfx
  rcases hx : decodeRangeKey row.1 with ⟨f, t', d, s⟩
  rw [hx] at hf ht'
  simp only at hf ht'
  exact ⟨d, s, by rw [hf, ht']⟩

theorem C6_untyped_time_bound_witness :
    (Except.ok (1, [7], 5, 2)
        ∈ EdgeRangeManager.iterateForRange
            ⟨[], [], [(EdgeRangeManager.key 1 [7] 5 2, [])], [], [], []⟩
            CfId.edgeRanges 1 none (some 5))
    ∧ 5 ≤ 5 :=
  ⟨by decide,
    C6_untyped_time_bound ⟨[], [], [(EdgeRangeManager.key 1 [7] 5 2, [])], [], [], []⟩
      CfId.edgeRanges 1 5 1 2 5 [7] (by decide)⟩

theorem C5_range_scan_prefix_closure_witness :
    ∃ d s, (Except.ok (1, [7], 5, 2) : Except DbErr EdgeRangeItem)
      = Except.ok (1, [7], d, s) :=
  C5_range_scan_prefix_closure
    ⟨[], [], [(EdgeRangeManager.key 1 [7] 5 2, [])], [], [], []⟩
    CfId.edgeRanges 1 [7] (by decide) (Except.ok (1, [7], 5, 2)) (by decide)

theorem keyLt_append_left (p a b : List Nat) :
    (keyLt (p ++ a) (p ++ b) = true ↔ keyLt a b = true) := by
  rw [keyLt_append_eqlen rfl]
  simp [keyLt_irrefl]

theorem keyLe_append_left (p a b : List Nat) :
    (keyLe (p ++ a) (p ++ b) = true ↔ keyLe a b = true) := by
  simp only [keyLe, Bool.or_eq_true, decide_eq_true_eq, keyLt_append_left,
    List.append_right_inj]

theorem keyLt_encDt {d1 d2 : Nat} (h1 : DtLegal d1) (h2 : DtLegal d2) :
    (keyLt (encDt d1) (encDt d2) = true ↔ d2 < d1) := by
  have h64 : U64MAX < 256 ^ 8 := by rw [← two_pow_64_eq]; simp [U64MAX]
  have hb1 : U64MAX - d1 < 256 ^ 8 := by omega
  have hb2 : U64MAX - d2 < 256 ^ 8 := by omega
  rw [encDt, encDt, keyLt_toBE hb1 hb2]
  have hle1 : d1 ≤ U64MAX := h1
  have hle2 : d2 ≤ U64MAX := h2
  omega

theorem dt_le_of_keyLe_suffix {h d s : Nat} (hh : DtLegal h) (hd : DtLegal d)
    (hle : keyLe (encDt h) (encDt d ++ encUuid s) = true) : d ≤ h := by
  simp only [keyLe, Bool.or_eq_true, decide_eq_true_eq] at hle
  rcases hle with hlt | heq
  · have : keyLt (encDt h ++ []) (encDt d ++ encUuid s) = true := by
      rwa [List.append_nil]
    rw [keyLt_append_eqlen (by rw [encDt_length, encDt_length])] at this
    rcases this with hlt' | ⟨heq', _⟩
    · exact Nat.le_of_lt ((keyLt_encDt hh hd).1 hlt')
    · exact Nat.le_of_eq (encDt_inj hd hh heq'.symm)
  · exfalso
    have := congrArg List.length heq
    rw [encDt_length, List.length_append, encDt_length, encUuid_length] at this
    omega

theorem rangeKey_split (f : Nat) (t : List Nat) (d s : Nat) :
    EdgeRangeManager.key f t d s
      = build [Component.uuid f, Component.ty t] ++ (encDt d ++ encUuid s) := by
  simp [EdgeRangeManager.key, build, Component.enc]

theorem rangeLowKey_split (f : Nat) (t : List Nat) (d : Nat) :
    build [Component.uuid f, Component.ty t, Component.dt d]
      = build [Component.uuid f, Component.ty t] ++ encDt d := by
  simp [build, Component.enc]

/-- Shape of a well-formed range row inside the `(id, t)` prefix block. -/
theorem rangeRow_shape {id : Nat} {t k : List Nat} (hid : UuidLegal id)
    (hok : RangeKeyOk k)
    (hpfx : startsW (build [Component.uuid id, Component.ty t]) k = true) :
    ∃ d s, DtLegal d ∧ UuidLegal s
      ∧ k = build [Component.uuid id, Component.ty t] ++ (encDt d ++ encUuid s)
      ∧ decodeRangeKey k = (id, t, d, s) := by
  obtain ⟨f, t', d, s, hf, ht', hd, hs, rfl⟩ := (RangeKeyOk_iff _).1 hok
  have hdec := @decodeRangeKey_key f t' d s hf hd hs
  obtain ⟨h1, h2⟩ := decodeRangeKey_startsW hid hpfx
  rw [hdec] at h1 h2
  simp only at h1 h2
  subst h1
  subst h2
  exact ⟨d, s, hd, hs, rangeKey_split _ _ _ _, hdec⟩

/-- C7: `iterate_for_range(id, Some t, Some high)` yields entries in
reverse-chronological order, all with `update_datetime ≤ high`.  The
modelled codec uses the descending datetime encoding — the convention
the non-inverted seek of the source requires (see the doc comment on
`encDt`) — under which seeking at `(id, t, high)` and walking forward
realises exactly this contract over any sorted, well-formed range
family. -/
theorem C7_typed_reverse_chronological (db : Db) (c : CfId) (id : Nat) (t : List Nat)
    (high : Nat) (hs : CfSorted (db.cf c)) (hwf : RangeCfWf (db.cf c))
    (hid : UuidLegal id) (hh : DtLegal high) :
    (∀ item ∈ EdgeRangeManager.iterateForRange db c id (some t) (some high),
        dtOf item ≤ high)
    ∧ (EdgeRangeManager.iterateForRange db c id (some t) (some high)).Pairwise
        (fun a b => dtOf b ≤ dtOf a) := by
  have hiter : EdgeRangeManager.iterateForRange db c id (some t) (some high)
      = EdgeRangeManager.iterate
          (iterFrom (db.cf c)
            (build [Component.uuid id, Component.ty t, Component.dt high]))
          (build [Component.uuid id, Component.ty t]) := rfl
  have hlow : startsW (build [Component.uuid id, Component.ty t])
      (build [Component.uuid id, Component.ty t, Component.dt high]) = true := by
    rw [rangeLowKey_split]
    exact startsW_append _ _
  have hrows : takeWhilePrefixed
      (iterFrom (db.cf c)
        (build [Component.uuid id, Component.ty t, Component.dt high]))
      (build [Component.uuid id, Component.ty t])
      = (db.cf c).filter (fun e =>
          keyLe (build [Component.uuid id, Component.ty t, Component.dt high]) e.1
            && startsW (build [Component.uuid id, Component.ty t]) e.1) :=
    scanFrom_eq_filter hs hlow
  constructor
  · intro item hm
    rw [hiter] at hm
    simp only [EdgeRangeManager.iterate] at hm
    rw [List.mem_map] at hm
    obtain ⟨row, hrow, rfl⟩ := hm
    rw [hrows, List.mem_filter] at hrow
    obtain ⟨hmem, hcond⟩ := hrow
    rw [Bool.and_eq_true] at hcond
    obtain ⟨hle, hsw⟩ := hcond
    obtain ⟨d, s, hd, hsleg, hksplit, hdec⟩ := rangeRow_shape hid (hwf row hmem) hsw
    rw [hksplit, rangeLowKey_split, keyLe_append_left] at hle
    have hdle : d ≤ high := dt_le_of_keyLe_suffix hh hd hle
    simpa [dtOf, hdec] using hdle
  · rw [hiter]
    simp only [EdgeRangeManager.iterate]
    rw [List.pairwise_map, hrows]
    have hpw : ((db.cf c).filter (fun e =>
        keyLe (build [Component.uuid id, Component.ty t, Component.dt high]) e.1
          && startsW (build [Component.uuid id, Component.ty t]) e.1)).Pairwise
        (fun a b : Row => keyLt a.1 b.1 = true) := List.Pairwise.filter _ hs
    refine hpw.imp_of_mem ?_
    intro a b ha hb hlt
    obtain ⟨hamem, hacond⟩ := List.mem_filter.1 ha
    obtain ⟨hbmem, hbcond⟩ := List.mem_filter.1 hb
    rw [Bool.and_eq_true] at hacond hbcond
    obtain ⟨d1, s1, hd1, hs1, hk1, hdec1⟩ := rangeRow_shape hid (hwf a hamem) hacond.2
    obtain ⟨d2, s2, hd2, hs2, hk2, hdec2⟩ := rangeRow_shape hid (hwf b hbmem) hbcond.2
    rw [hk1, hk2, keyLt_append_left] at hlt
    rw [keyLt_append_eqlen (by rw [encDt_length, encDt_length])] at hlt
    have hdd : d2 ≤ d1 := by
      rcases hlt with h | ⟨heq, _⟩
      · exact Nat.le_of_lt ((keyLt_encDt hd1 hd2).1 h)
      · exact Nat.le_of_eq (encDt_inj hd2 hd1 heq.symm)
    simpa [dtOf, hdec1, hdec2] using hdd

theorem C7_typed_reverse_chronological_witness :
    (∀ item ∈ EdgeRangeManager.iterateForRange
        ⟨[], [], [(EdgeRangeManager.key 1 [7] 9 2, []),
          (EdgeRangeManager.key 1 [7] 4 2, [])], [], [], []⟩
        CfId.edgeRanges 1 (some [7]) (some 9), dtOf item ≤ 9)
    ∧ (EdgeRangeManager.iterateForRange
        ⟨[], [], [(EdgeRangeManager.key 1 [7] 9 2, []),
          (EdgeRangeManager.key 1 [7] 4 2, [])], [], [], []⟩
        CfId.edgeRanges 1 (some [7]) (some 9)).Pairwise
        (fun a b => dtOf b ≤ dtOf a) :=
  C7_typed_reverse_chronological
    ⟨[], [], [(EdgeRangeManager.key 1 [7] 9 2, []),
      (EdgeRangeManager.key 1 [7] 4 2, [])], [], [], []⟩
    CfId.edgeRanges 1 [7] 9 (by decide) (by decide) (by decide) (by decide)

theorem read_str_enc (s : List Nat) : read_unsized_string (s ++ []) = (s ++ [], []) := rfl

/-- Decoding against the schema inverts `build` on every legal tuple. -/
theorem decodeTuple_build (T : List Component) (hT : TupleLegal T) :
    decodeTuple (T.map Component.kind) (build T) = T := by
  induction T with
  | nil => rfl
  | cons c T' ih =>
    obtain ⟨hleg, hstr⟩ := hT
    have hcleg : c.Legal := hleg c (List.mem_cons_self _ _)
    have hT' : TupleLegal T' := by
      refine ⟨fun x hx => hleg x (List.mem_cons_of_mem _ hx), ?_⟩
      intro x hx
      cases T' with
      | nil => simp at hx
      | cons c2 T2 =>
        apply hstr
        have hdl : (c :: c2 :: T2).dropLast = c :: (c2 :: T2).dropLast := rfl
        rw [hdl]
        exact List.mem_cons_of_mem _ hx
    have hbuild : build (c :: T') = c.enc ++ build T' := build_cons c T'
    cases c with
    | uuid u =>
      simp only [List.map_cons, Component.kind, decodeTuple, hbuild, Component.enc]
      rw [read_uuid_enc hcleg]
      simp [ih hT']
    | ty t =>
      simp only [List.map_cons, Component.kind, decodeTuple, hbuild, Component.enc]
      rw [read_type_enc]
      simp [ih hT']
    | dt d =>
      simp only [List.map_cons, Component.kind, decodeTuple, hbuild, Component.enc]
      rw [read_datetime_enc hcleg]
      simp [ih hT']
    | str s =>
      cases T' with
      | nil =>
        simp only [List.map_cons, List.map_nil, Component.kind, decodeTuple, hbuild,
          Component.enc, build_nil, read_unsized_string]
        simp
      | cons c2 T2 =>
        exfalso
        have hmem : Component.str s ∈ (Component.str s :: c2 :: T2).dropLast := by
          have hdl : (Component.str s :: c2 :: T2).dropLast
              = Component.str s :: (c2 :: T2).dropLast := rfl
          rw [hdl]
          exact List.mem_cons_self _ _
        exact hstr _ hmem rfl

theorem keyLt_uuid_append {u1 u2 : Nat} (h1 : UuidLegal u1) (h2 : UuidLegal u2)
    (r1 r2 : List Nat) :
    (keyLt (encUuid u1 ++ r1) (encUuid u2 ++ r2) = true ↔
      u1 < u2 ∨ (u1 = u2 ∧ keyLt r1 r2 = true)) := by
  rw [keyLt_append_eqlen (by rw [encUuid_length, encUuid_length])]
  have hb1 : u1 < 256 ^ 16 := by rw [← two_pow_128_eq]; exact h1
  have hb2 : u2 < 256 ^ 16 := by rw [← two_pow_128_eq]; exact h2
  constructor
  · rintro (h | ⟨he, hr⟩)
    · exact Or.inl ((keyLt_toBE hb1 hb2).1 h)
    · exact Or.inr ⟨toBE_inj hb1 hb2 he, hr⟩
  · rintro (h | ⟨rfl, hr⟩)
    · exact Or.inl ((keyLt_toBE hb1 hb2).2 h)
    · exact Or.inr ⟨rfl, hr⟩

theorem keyLt_dt_append {d1 d2 : Nat} (h1 : DtLegal d1) (h2 : DtLegal d2)
    (r1 r2 : List Nat) :
    (keyLt (encDt d1 ++ r1) (encDt d2 ++ r2) = true ↔
      d2 < d1 ∨ (d1 = d2 ∧ keyLt r1 r2 = true)) := by
  rw [keyLt_append_eqlen (by rw [encDt_length, encDt_length])]
  constructor
  · rintro (h | ⟨he, hr⟩)
    · exact Or.inl ((keyLt_encDt h1 h2).1 h)
    · exact Or.inr ⟨encDt_inj h1 h2 he, hr⟩
  · rintro (h | ⟨rfl, hr⟩)
    · exact Or.inl ((keyLt_encDt h1 h2).2 h)
    · exact Or.inr ⟨rfl, hr⟩

theorem keyLt_ty_append (t1 t2 r1 r2 : List Nat) :
    (keyLt (encTy t1 ++ r1) (encTy t2 ++ r2) = true ↔
      (t1.length < t2.length ∨ (t1.length = t2.length ∧ keyLt t1 t2 = true))
        ∨ (t1 = t2 ∧ keyLt r1 r2 = true)) := by
  show keyLt (t1.length :: (t1 ++ r1)) (t2.length :: (t2 ++ r2)) = true ↔ _
  rw [keyLt_cons]
  constructor
  · rintro (h | ⟨he, hr⟩)
    · exact Or.inl (Or.inl h)
    · rw [keyLt_append_eqlen he] at hr
      rcases hr with hr | ⟨rfl, hr⟩
      · exact Or.inl (Or.inr ⟨he, hr⟩)
      · exact Or.inr ⟨rfl, hr⟩
  · rintro ((h | ⟨he, ht⟩) | ⟨rfl, hr⟩)
    · exact Or.inl h
    · exact Or.inr ⟨he, by rw [keyLt_append_eqlen he]; exact Or.inl ht⟩
    · exact Or.inr ⟨rfl, by rw [keyLt_append_eqlen rfl]; exact Or.inr ⟨rfl, hr⟩⟩

theorem TupleLegal.tail {c : Component} {T : List Component}
    (h : TupleLegal (c :: T)) : TupleLegal T := by
  obtain ⟨hleg, hstr⟩ := h
  refine ⟨fun x hx => hleg x (List.mem_cons_of_mem _ hx), ?_⟩
  intro x hx
  cases T with
  | nil => simp at hx
  | cons c2 T2 =>
    apply hstr
    have hdl : (c :: c2 :: T2).dropLast = c :: (c2 :: T2).dropLast := rfl
    rw [hdl]
    exact List.mem_cons_of_mem _ hx

theorem TupleLegal.head_kind {c : Component} {T : List Component}
    (h : TupleLegal (c :: T)) (hT : T ≠ []) : c.kind ≠ CKind.str := by
  intro hc
  apply h.2 c ?_ hc
  cases T with
  | nil => exact absurd rfl hT
  | cons c2 T2 =>
    have hdl : (c :: c2 :: T2).dropLast = c :: (c2 :: T2).dropLast := rfl
    rw [hdl]
    exact List.mem_cons_self _ _

/-- Bytewise order of built keys refines the encoding-induced
tuple-lexicographic order, over same-schema legal tuples. -/
theorem build_lt_of_tupleLtEnc : ∀ T1 T2 : List Component, TupleLegal T1 → TupleLegal T2 →
    T1.map Component.kind = T2.map Component.kind → tupleLtEnc T1 T2 →
    keyLt (build T1) (build T2) = true := by
  intro T1
  induction T1 with
  | nil =>
    intro T2 _ _ hk hlt
    cases T2 with
    | nil => exact absurd hlt (by simp [tupleLtEnc])
    | cons c2 R2 => simp at hk
  | cons c1 R1 ih =>
    intro T2 hT1 hT2 hk hlt
    cases T2 with
    | nil => simp at hk
    | cons c2 R2 =>
      simp only [List.map_cons, List.cons.injEq] at hk
      obtain ⟨hkc, hkr⟩ := hk
      have hc1 : c1.Legal := hT1.1 _ (List.mem_cons_self _ _)
      have hc2 : c2.Legal := hT2.1 _ (List.mem_cons_self _ _)
      rcases hlt with hclt | ⟨rfl, hrlt⟩
      · by_cases hkind : c1.kind = CKind.str
        · cases c1 with
          | str s1 =>
            cases c2 with
            | str s2 =>
              have hR1 : R1 = [] := by
                cases R1 with
                | nil => rfl
                | cons x xs => exact absurd rfl (hT1.head_kind (by simp))
              have hR2 : R2 = [] := by
                cases R2 with
                | nil => rfl
                | cons x xs => exact absurd rfl (hT2.head_kind (by simp))
              subst hR1
              subst hR2
              rw [build_one, build_one]
              exact hclt
            | uuid u => exact hclt.elim
            | ty t => exact hclt.elim
            | dt d => exact hclt.elim
          | uuid u => exact absurd hkind (by simp [Component.kind])
          | ty t => exact absurd hkind (by simp [Component.kind])
          | dt d => exact absurd hkind (by simp [Component.kind])
        · rw [build_cons, build_cons]
          cases c1 with
          | uuid u1 =>
            cases c2 with
            | uuid u2 => exact (keyLt_uuid_append hc1 hc2 _ _).2 (Or.inl hclt)
            | ty t => exact hclt.elim
            | dt d => exact hclt.elim
            | str s => exact hclt.elim
          | ty t1 =>
            cases c2 with
            | ty t2 => exact (keyLt_ty_append t1 t2 _ _).2 (Or.inl hclt)
            | uuid u => exact hclt.elim
            | dt d => exact hclt.elim
            | str s => exact hclt.elim
          | dt d1 =>
            cases c2 with
            | dt d2 => exact (keyLt_dt_append hc1 hc2 _ _).2 (Or.inl hclt)
            | uuid u => exact hclt.elim
            | ty t => exact hclt.elim
            | str s => exact hclt.elim
          | str s => exact absurd rfl hkind
      · rw [build_cons, build_cons, keyLt_append_left]
        exact ih R2 hT1.tail hT2.tail hkr hrlt

/-- C4 counterexample: the claim as stated — tuple-lexicographic order
with each component compared naively (Types bytewise, DateTimes
chronologically) is preserved bytewise by `build` — fails.  With
`T1 = (uuid 1, "aa", 5, uuid 2)` and `T2 = (uuid 1, "z", 5, uuid 2)`
(`"aa" = [97,97]`, `"z" = [122]`), `T1 < T2` tuple-lexicographically
since `"aa" < "z"` bytewise, yet `build T1 > build T2`: the Type
length-prefix byte (2 vs 1) decides the comparison first. -/
theorem C4_codec_counterexample :
    TupleLegal [Component.uuid 1, Component.ty [97, 97], Component.dt 5, Component.uuid 2]
    ∧ TupleLegal [Component.uuid 1, Component.ty [122], Component.dt 5, Component.uuid 2]
    ∧ ([Component.uuid 1, Component.ty [97, 97], Component.dt 5,
          Component.uuid 2].map Component.kind
        = [Component.uuid 1, Component.ty [122], Component.dt 5,
            Component.uuid 2].map Component.kind)
    ∧ tupleLtNat
        [Component.uuid 1, Component.ty [97, 97], Component.dt 5, Component.uuid 2]
        [Component.uuid 1, Component.ty [122], Component.dt 5, Component.uuid 2]
    ∧ keyLt
        (build [Component.uuid 1, Component.ty [97, 97], Component.dt 5,
          Component.uuid 2])
        (build [Component.uuid 1, Component.ty [122], Component.dt 5,
          Component.uuid 2]) = false := by
  decide

/-- C4 amended: for every legal tuple, decoding the encoding against its
schema yields the tuple back; and `build` turns the tuple-lexicographic
order *induced by the component encodings* — UUIDs by value, Types
shortlex (length byte first, then bytewise), DateTimes descending (the
modelled `MAX − instant` encoding), trailing strings bytewise — into
strict bytewise order of the keys, for same-schema legal tuples. -/
theorem C4_codec_roundtrip_and_order :
    (∀ T : List Component, TupleLegal T →
      decodeTuple (T.map Component.kind) (build T) = T)
    ∧ (∀ T1 T2 : List Component, TupleLegal T1 → TupleLegal T2 →
        T1.map Component.kind = T2.map Component.kind →
        tupleLtEnc T1 T2 → keyLt (build T1) (build T2) = true) :=
  ⟨decodeTuple_build, build_lt_of_tupleLtEnc⟩

theorem C4_codec_roundtrip_and_order_witness :
    decodeTuple
        ([Component.uuid 1, Component.ty [97], Component.dt 5,
          Component.uuid 2].map Component.kind)
        (build [Component.uuid 1, Component.ty [97], Component.dt 5, Component.uuid 2])
      = [Component.uuid 1, Component.ty [97], Component.dt 5, Component.uuid 2]
    ∧ keyLt
        (build [Component.uuid 1, Component.ty [97], Component.dt 5, Component.uuid 2])
        (build [Component.uuid 1, Component.ty [97, 97], Component.dt 5,
          Component.uuid 2]) = true :=
  ⟨C4_codec_roundtrip_and_order.1 _ (by decide),
    C4_codec_roundtrip_and_order.2 _ _ (by decide) (by decide) (by decide) (by decide)⟩

theorem build_dt (d : Nat) : build [Component.dt d] = encDt d := build_one _

theorem read_datetime_encDt {d : Nat} (hd : DtLegal d) :
    (read_datetime (encDt d)).1 = d := by
  have := read_datetime_enc hd []
  rw [List.append_nil] at this
  rw [this]

theorem inv_edges_row {db : Db} (hinv : MirrorInv db) {k v : List Nat}
    (hm : (k, v) ∈ db.edges) :
    ∃ o' t' i' d', UuidLegal o' ∧ TyLegal t' ∧ UuidLegal i' ∧ DtLegal d' ∧
      k = EdgeManager.key o' t' i' ∧ v = encDt d' ∧
      decodeEdgeKey k = (o', t', i') ∧ (read_datetime v).1 = d' := by
  obtain ⟨hk, hv⟩ := hinv.1 (k, v) hm
  obtain ⟨o', t', i', ho', ht', hi', hkeq⟩ := (EdgeKeyOk_iff k).1 hk
  obtain ⟨d', hd', hveq⟩ := (DtValOk_iff v).1 hv
  refine ⟨o', t', i', d', ho', ht', hi', hd', hkeq, hveq, ?_, ?_⟩
  · rw [hkeq]
    exact @decodeEdgeKey_key o' t' i' ho' hi'
  · rw [hveq]
    exact read_datetime_encDt hd'

theorem inv_fwd_row {db : Db} (hinv : MirrorInv db) {k v : List Nat}
    (hm : (k, v) ∈ db.edge_ranges) :
    ∃ f t' d' s, UuidLegal f ∧ TyLegal t' ∧ DtLegal d' ∧ UuidLegal s ∧
      k = EdgeRangeManager.key f t' d' s ∧ v = [] ∧
      decodeRangeKey k = (f, t', d', s) ∧
      cfGet db.edges (EdgeManager.key f t' s) = some (encDt d') := by
  obtain ⟨hk, hv, hget⟩ := hinv.2.1 (k, v) hm
  obtain ⟨f, t', d', s, hf, ht', hd', hs, hkeq⟩ := (RangeKeyOk_iff k).1 hk
  have hdec : decodeRangeKey k = (f, t', d', s) := by
    rw [hkeq]
    exact @decodeRangeKey_key f t' d' s hf hd' hs
  refine ⟨f, t', d', s, hf, ht', hd', hs, hkeq, hv, hdec, ?_⟩
  rw [hdec] at hget
  exact hget

theorem inv_rev_row {db : Db} (hinv : MirrorInv db) {k v : List Nat}
    (hm : (k, v) ∈ db.reversed_edge_ranges) :
    ∃ f t' d' s, UuidLegal f ∧ TyLegal t' ∧ DtLegal d' ∧ UuidLegal s ∧
      k = EdgeRangeManager.key f t' d' s ∧ v = [] ∧
      decodeRangeKey k = (f, t', d', s) ∧
      cfGet db.edges (EdgeManager.key s t' f) = some (encDt d') := by
  obtain ⟨hk, hv, hget⟩ := hinv.2.2.1 (k, v) hm
  obtain ⟨f, t', d', s, hf, ht', hd', hs, hkeq⟩ := (RangeKeyOk_iff k).1 hk
  have hdec : decodeRangeKey k = (f, t', d', s) := by
    rw [hkeq]
    exact @decodeRangeKey_key f t' d' s hf hd' hs
  refine ⟨f, t', d', s, hf, ht', hd', hs, hkeq, hv, hdec, ?_⟩
  rw [hdec] at hget
  exact hget

theorem inv_edges_mirror {db : Db} (hinv : MirrorInv db) {k v : List Nat}
    (hm : (k, v) ∈ db.edges) {o' i' d' : Nat} {t' : List Nat}
    (hdec : decodeEdgeKey k = (o', t', i')) (hdt : (read_datetime v).1 = d') :
    cfGet db.edge_ranges (EdgeRangeManager.key o' t' d' i') = some []
    ∧ cfGet db.reversed_edge_ranges (EdgeRangeManager.key i' t' d' o') = some [] := by
  have h := hinv.2.2.2 (k, v) hm
  rw [hdec, hdt] at h
  exact h

/-- Source `EdgeManager::set` preserves the mirror invariant across a commit:
the stale range rows (when the edge existed) are removed and both new
mirror rows are staged together with the edge row. -/
theorem mirrorInv_set {db : Db} {o i d : Nat} {t : List Nat}
    (hsort : DbSorted db) (hinv : MirrorInv db)
    (ho : UuidLegal o) (ht : TyLegal t) (hi : UuidLegal i) (hd : DtLegal d) :
    MirrorInv (commit db (EdgeManager.set db o t i d)) := by
  have hsE : CfSorted db.edges := hsort CfId.edges
  have hsF : CfSorted db.edge_ranges := hsort CfId.edgeRanges
  have hsR : CfSorted db.reversed_edge_ranges := hsort CfId.reversedEdgeRanges
  cases hcur : cfGet db.edges (EdgeManager.key o t i) with
  | none =>
    have hops : EdgeManager.set db o t i d
        = [BatchOp.put CfId.edges (EdgeManager.key o t i) (build [Component.dt d]),
           BatchOp.put CfId.edgeRanges (EdgeRangeManager.key o t d i) [],
           BatchOp.put CfId.reversedEdgeRanges (EdgeRangeManager.key i t d o) []] := by
      simp [EdgeManager.set, hcur, EdgeRangeManager.set]
    have hE : (commit db (EdgeManager.set db o t i d)).edges
        = cfPut db.edges (EdgeManager.key o t i) (build [Component.dt d]) := by
      rw [hops]; rfl
    have hF : (commit db (EdgeManager.set db o t i d)).edge_ranges
        = cfPut db.edge_ranges (EdgeRangeManager.key o t d i) [] := by
      rw [hops]; rfl
    have hR : (commit db (EdgeManager.set db o t i d)).reversed_edge_ranges
        = cfPut db.reversed_edge_ranges (EdgeRangeManager.key i t d o) [] := by
      rw [hops]; rfl
    unfold MirrorInv
    refine ⟨?_, ?_, ?_, ?_⟩
    · intro e he
      rw [hE] at he
      rcases (mem_cfPut_iff hsE).1 he with rfl | ⟨hold, hne⟩
      · exact ⟨(EdgeKeyOk_iff _).2 ⟨o, t, i, ho, ht, hi, rfl⟩,
          (DtValOk_iff _).2 ⟨d, hd, build_dt d⟩⟩
      · exact hinv.1 e hold
    · intro r hr
      rw [hF] at hr
      rcases (mem_cfPut_iff hsF).1 hr with rfl | ⟨hold, hne⟩
      · have hdec : decodeRangeKey ((EdgeRangeManager.key o t d i, ([] : List Nat)).1)
            = (o, t, d, i) := @decodeRangeKey_key o t d i ho hd hi
        refine ⟨(RangeKeyOk_iff _).2 ⟨o, t, d, i, ho, ht, hd, hi, rfl⟩, rfl, ?_⟩
        rw [hdec]
        show cfGet (commit db (EdgeManager.set db o t i d)).edges
            (EdgeManager.key o t i) = some (encDt d)
        rw [hE, cfGet_cfPut_self, build_dt]
      · obtain ⟨f, t', d', s, hf, ht', hd', hs, hkeq, hveq, hdec, hget⟩ :=
          inv_fwd_row hinv hold
        refine ⟨(RangeKeyOk_iff _).2 ⟨f, t', d', s, hf, ht', hd', hs, hkeq⟩, hveq, ?_⟩
        rw [hdec]
        show cfGet (commit db (EdgeManager.set db o t i d)).edges
            (EdgeManager.key f t' s) = some (encDt d')
        rw [hE]
        by_cases hek : EdgeManager.key f t' s = EdgeManager.key o t i
        · exfalso
          rw [hek, hcur] at hget
          exact Option.noConfusion hget
        · rw [cfGet_cfPut_ne _ _ hek]
          exact hget
    · intro r hr
      rw [hR] at hr
      rcases (mem_cfPut_iff hsR).1 hr with rfl | ⟨hold, hne⟩
      · have hdec : decodeRangeKey ((EdgeRangeManager.key i t d o, ([] : List Nat)).1)
            = (i, t, d, o) := @decodeRangeKey_key i t d o hi hd ho
        refine ⟨(RangeKeyOk_iff _).2 ⟨i, t, d, o, hi, ht, hd, ho, rfl⟩, rfl, ?_⟩
        rw [hdec]
        show cfGet (commit db (EdgeManager.set db o t i d)).edges
            (EdgeManager.key o t i) = some (encDt d)
        rw [hE, cfGet_cfPut_self, build_dt]
      · obtain ⟨f, t', d', s, hf, ht', hd', hs, hkeq, hveq, hdec, hget⟩ :=
          inv_rev_row hinv hold
        refine ⟨(RangeKeyOk_iff _).2 ⟨f, t', d', s, hf, ht', hd', hs, hkeq⟩, hveq, ?_⟩
        rw [hdec]
        show cfGet (commit db (EdgeManager.set db o t i d)).edges
            (EdgeManager.key s t' f) = some (encDt d')
        rw [hE]
        by_cases hek : EdgeManager.key s t' f = EdgeManager.key o t i
        · exfalso
          rw [hek, hcur] at hget
          exact Option.noConfusion hget
        · rw [cfGet_cfPut_ne _ _ hek]
          exact hget
    · intro e he
      rw [hE] at he
      rcases (mem_cfPut_iff hsE).1 he with rfl | ⟨hold, hne⟩
      · have hdecE : decodeEdgeKey ((EdgeManager.key o t i,
            build [Component.dt d]).1) = (o, t, i) := @decodeEdgeKey_key o t i ho hi
        have hdt : (read_datetime ((EdgeManager.key o t i,
            build [Component.dt d]).2)).1 = d := by
          show (read_datetime (build [Component.dt d])).1 = d
          rw [build_dt]
          exact read_datetime_encDt hd
        rw [hdecE, hdt]
        constructor
        · show cfGet (commit db (EdgeManager.set db o t i d)).edge_ranges
              (EdgeRangeManager.key o t d i) = some []
          rw [hF, cfGet_cfPut_self]
        · show cfGet (commit db (EdgeManager.set db o t i d)).reversed_edge_ranges
              (EdgeRangeManager.key i t d o) = some []
          rw [hR, cfGet_cfPut_self]
      · obtain ⟨o', t', i', d', ho', ht', hi', hd', hkeq, hveq, hdecE, hdt⟩ :=
          inv_edges_row hinv hold
        obtain ⟨hmF, hmR⟩ := inv_edges_mirror hinv hold hdecE hdt
        rw [hdecE, hdt]
        constructor
        · rw [hF]
          by_cases hk : EdgeRangeManager.key o' t' d' i' = EdgeRangeManager.key o t d i
          · rw [hk, cfGet_cfPut_self]
          · rw [cfGet_cfPut_ne _ _ hk]
            exact hmF
        · rw [hR]
          by_cases hk : EdgeRangeManager.key i' t' d' o' = EdgeRangeManager.key i t d o
          · rw [hk, cfGet_cfPut_self]
          · rw [cfGet_cfPut_ne _ _ hk]
            exact hmR
  | some v0 =>
    obtain ⟨o0, t0, i0, d0, ho0, ht0, hi0, hd0, hkeq0, hveq0, hdec0, hdt0⟩ :=
      inv_edges_row hinv (mem_of_cfGet_some hcur)
    obtain ⟨rfl, rfl, rfl⟩ := EdgeManager.edge_key_inj ho hi ho0 hi0 hkeq0
    have hops : EdgeManager.set db o t i d
        = [BatchOp.del CfId.edgeRanges (EdgeRangeManager.key o t d0 i),
           BatchOp.del CfId.reversedEdgeRanges (EdgeRangeManager.key i t d0 o),
           BatchOp.put CfId.edges (EdgeManager.key o t i) (build [Component.dt d]),
           BatchOp.put CfId.edgeRanges (EdgeRangeManager.key o t d i) [],
           BatchOp.put CfId.reversedEdgeRanges (EdgeRangeManager.key i t d o) []] := by
      simp [EdgeManager.set, hcur, EdgeRangeManager.set, EdgeRangeManager.delete, hdt0]
    have hE : (commit db (EdgeManager.set db o t i d)).edges
        = cfPut db.edges (EdgeManager.key o t i) (build [Component.dt d]) := by
      rw [hops]; rfl
    have hF : (commit db (EdgeManager.set db o t i d)).edge_ranges
        = cfPut (cfDel db.edge_ranges (EdgeRangeManager.key o t d0 i))
            (EdgeRangeManager.key o t d i) [] := by
      rw [hops]; rfl
    have hR : (commit db (EdgeManager.set db o t i d)).reversed_edge_ranges
        = cfPut (cfDel db.reversed_edge_ranges (EdgeRangeManager.key i t d0 o))
            (EdgeRangeManager.key i t d o) [] := by
      rw [hops]; rfl
    unfold MirrorInv
    refine ⟨?_, ?_, ?_, ?_⟩
    · intro e he
      rw [hE] at he
      rcases (mem_cfPut_iff hsE).1 he with rfl | ⟨hold, hne⟩
      · exact ⟨(EdgeKeyOk_iff _).2 ⟨o, t, i, ho, ht, hi, rfl⟩,
          (DtValOk_iff _).2 ⟨d, hd, build_dt d⟩⟩
      · exact hinv.1 e hold
    · intro r hr
      rw [hF] at hr
      rcases (mem_cfPut_iff (sorted_cfDel _ hsF)).1 hr with rfl | ⟨hold', hne⟩
      · have hdec : decodeRangeKey ((EdgeRangeManager.key o t d i, ([] : List Nat)).1)
            = (o, t, d, i) := @decodeRangeKey_key o t d i ho hd hi
        refine ⟨(RangeKeyOk_iff _).2 ⟨o, t, d, i, ho, ht, hd, hi, rfl⟩, rfl, ?_⟩
        rw [hdec]
        show cfGet (commit db (EdgeManager.set db o t i d)).edges
            (EdgeManager.key o t i) = some (encDt d)
        rw [hE, cfGet_cfPut_self, build_dt]
      · obtain ⟨hold, hne0⟩ := (mem_cfDel_iff hsF).1 hold'
        obtain ⟨f, t', d', s, hf, ht', hd', hs, hkeq, hveq, hdec, hget⟩ :=
          inv_fwd_row hinv hold
        refine ⟨(RangeKeyOk_iff _).2 ⟨f, t', d', s, hf, ht', hd', hs, hkeq⟩, hveq, ?_⟩
        rw [hdec]
        show cfGet (commit db (EdgeManager.set db o t i d)).edges
            (EdgeManager.key f t' s) = some (encDt d')
        rw [hE]
        by_cases hek : EdgeManager.key f t' s = EdgeManager.key o t i
        · exfalso
          obtain ⟨rfl, rfl, rfl⟩ := EdgeManager.edge_key_inj hf hs ho hi hek
          rw [hcur] at hget
          injection hget with hget'
          have hdd : d' = d0 := encDt_inj hd' hd0 (hveq0 ▸ hget'.symm)
          exact hne0 (by rw [hkeq, hdd])
        · rw [cfGet_cfPut_ne _ _ hek]
          exact hget
    · intro r hr
      rw [hR] at hr
      rcases (mem_cfPut_iff (sorted_cfDel _ hsR)).1 hr with rfl | ⟨hold', hne⟩
      · have hdec : decodeRangeKey ((EdgeRangeManager.key i t d o, ([] : List Nat)).1)
            = (i, t, d, o) := @decodeRangeKey_key i t d o hi hd ho
        refine ⟨(RangeKeyOk_iff _).2 ⟨i, t, d, o, hi, ht, hd, ho, rfl⟩, rfl, ?_⟩
        rw [hdec]
        show cfGet (commit db (EdgeManager.set db o t i d)).edges
            (EdgeManager.key o t i) = some (encDt d)
        rw [hE, cfGet_cfPut_self, build_dt]
      · obtain ⟨hold, hne0⟩ := (mem_cfDel_iff hsR).1 hold'
        obtain ⟨f, t', d', s, hf, ht', hd', hs, hkeq, hveq, hdec, hget⟩ :=
          inv_rev_row hinv hold
        refine ⟨(RangeKeyOk_iff _).2 ⟨f, t', d', s, hf, ht', hd', hs, hkeq⟩, hveq, ?_⟩
        rw [hdec]
        show cfGet (commit db (EdgeManager.set db o t i d)).edges
            (EdgeManager.key s t' f) = some (encDt d')
        rw [hE]
        by_cases hek : EdgeManager.key s t' f = EdgeManager.key o t i
        · exfalso
          obtain ⟨rfl, rfl, rfl⟩ := EdgeManager.edge_key_inj hs hf ho hi hek
          rw [hcur] at hget
          injection hget with hget'
          have hdd : d' = d0 := encDt_inj hd' hd0 (hveq0 ▸ hget'.symm)
          exact hne0 (by rw [hkeq, hdd])
        · rw [cfGet_cfPut_ne _ _ hek]
          exact hget
    · intro e he
      rw [hE] at he
      rcases (mem_cfPut_iff hsE).1 he with rfl | ⟨hold, hne⟩
      · have hdecE : decodeEdgeKey ((EdgeManager.key o t i,
            build [Component.dt d]).1) = (o, t, i) := @decodeEdgeKey_key o t i ho hi
        have hdt : (read_datetime ((EdgeManager.key o t i,
            build [Component.dt d]).2)).1 = d := by
          show (read_datetime (build [Component.dt d])).1 = d
          rw [build_dt]
          exact read_datetime_encDt hd
        rw [hdecE, hdt]
        constructor
        · show cfGet (commit db (EdgeManager.set db o t i d)).edge_ranges
              (EdgeRangeManager.key o t d i) = some []
          rw [hF, cfGet_cfPut_self]
        · show cfGet (commit db (EdgeManager.set db o t i d)).reversed_edge_ranges
              (EdgeRangeManager.key i t d o) = some []
          rw [hR, cfGet_cfPut_self]
      · obtain ⟨o', t', i', d', ho', ht', hi', hd', hkeq, hveq, hdecE, hdt⟩ :=
          inv_edges_row hinv hold
        obtain ⟨hmF, hmR⟩ := inv_edges_mirror hinv hold hdecE hdt
        rw [hdecE, hdt]
        constructor
        · rw [hF]
          by_cases hk : EdgeRangeManager.key o' t' d' i' = EdgeRangeManager.key o t d i
          · rw [hk, cfGet_cfPut_self]
          · rw [cfGet_cfPut_ne _ _ hk]
            by_cases hk0 : EdgeRangeManager.key o' t' d' i' = EdgeRangeManager.key o t d0 i
            · exfalso
              obtain ⟨rfl, rfl, _, rfl⟩ := EdgeRangeManager.range_key_inj ho' hd' hi' ho hd0 hi hk0
              exact hne (by rw [hkeq])
            · rw [cfGet_cfDel_ne _ hk0]
              exact hmF
        · rw [hR]
          by_cases hk : EdgeRangeManager.key i' t' d' o' = EdgeRangeManager.key i t d o
          · rw [hk, cfGet_cfPut_self]
          · rw [cfGet_cfPut_ne _ _ hk]
            by_cases hk0 : EdgeRangeManager.key i' t' d' o' = EdgeRangeManager.key i t d0 o
            · exfalso
              obtain ⟨rfl, rfl, _, rfl⟩ := EdgeRangeManager.range_key_inj hi' hd' ho' hi hd0 ho hk0
              exact hne (by rw [hkeq])
            · rw [cfGet_cfDel_ne _ hk0]
              exact hmR

theorem cfActs_append (c : CfId) (l1 l2 : List BatchOp) :
    cfActs c (l1 ++ l2) = cfActs c l1 ++ cfActs c l2 := by
  induction l1 with
  | nil => rfl
  | cons op rest ih =>
    cases op with
    | put c' k v =>
      by_cases hc : c' = c <;> simp [cfActs, hc, ih]
    | del c' k =>
      by_cases hc : c' = c <;> simp [cfActs, hc, ih]

theorem cfActs_nil_of_ne {c : CfId} {l : List BatchOp}
    (h : ∀ op ∈ l, opCf op ≠ c) : cfActs c l = [] := by
  induction l with
  | nil => rfl
  | cons op rest ih =>
    have hop : opCf op ≠ c := h op (List.mem_cons_self _ _)
    have hrest : ∀ op ∈ rest, opCf op ≠ c := fun op hm => h op (List.mem_cons_of_mem _ hm)
    cases op with
    | put c' k v =>
      simp only [opCf] at hop
      simp [cfActs, hop, ih hrest]
    | del c' k =>
      simp only [opCf] at hop
      simp [cfActs, hop, ih hrest]

theorem epDels_cf (db : Db) (o i : Nat) (t : List Nat) :
    ∀ op ∈ (EdgePropertyManager.iterateForOwner db o t i).filterMap
      (fun item =>
        match item with
        | .ok ((po, pt, pi, name), _) =>
          some (BatchOp.del CfId.edgeProps (EdgePropertyManager.key po pt pi name))
        | .error _ => none),
      opCf op = CfId.edgeProps := by
  intro op hop
  rw [List.mem_filterMap] at hop
  obtain ⟨item, _, hmap⟩ := hop
  match item with
  | .ok ((po, pt, pi, name), _) =>
    simp only [Option.some.injEq] at hmap
    rw [← hmap]
    rfl
  | .error _ => exact Option.noConfusion hmap

theorem delete_commit_cf (db : Db) (o i d : Nat) (t : List Nat) (c : CfId)
    (hc : c ≠ CfId.edgeProps) :
    (commit db (EdgeManager.delete db o t i d)).cf c
      = applyActs (db.cf c)
          (cfActs c
            [BatchOp.del CfId.edges (EdgeManager.key o t i),
             BatchOp.del CfId.edgeRanges (EdgeRangeManager.key o t d i),
             BatchOp.del CfId.reversedEdgeRanges (EdgeRangeManager.key i t d o)]) := by
  rw [commit_cf]
  have hsplit : EdgeManager.delete db o t i d
      = [BatchOp.del CfId.edges (EdgeManager.key o t i),
         BatchOp.del CfId.edgeRanges (EdgeRangeManager.key o t d i),
         BatchOp.del CfId.reversedEdgeRanges (EdgeRangeManager.key i t d o)]
        ++ (EdgePropertyManager.iterateForOwner db o t i).filterMap
            (fun item =>
              match item with
              | .ok ((po, pt, pi, name), _) =>
                some (BatchOp.del CfId.edgeProps (EdgePropertyManager.key po pt pi name))
              | .error _ => none) := by
    simp [EdgeManager.delete, EdgeRangeManager.delete]
  rw [hsplit, cfActs_append]
  have hnil : cfActs c ((EdgePropertyManager.iterateForOwner db o t i).filterMap
      (fun item =>
        match item with
        | .ok ((po, pt, pi, name), _) =>
          some (BatchOp.del CfId.edgeProps (EdgePropertyManager.key po pt pi name))
        | .error _ => none)) = [] :=
    cfActs_nil_of_ne (fun op hop => by rw [epDels_cf db o i t op hop]; exact Ne.symm hc)
  rw [hnil, List.append_nil]

theorem delete_commit_edges (db : Db) (o i d : Nat) (t : List Nat) :
    (commit db (EdgeManager.delete db o t i d)).edges
      = cfDel db.edges (EdgeManager.key o t i) := by
  have h := delete_commit_cf db o i d t CfId.edges (by simp)
  simp only [Db.cf] at h
  rw [h]
  simp [cfActs, applyActs]

theorem delete_commit_fwd (db : Db) (o i d : Nat) (t : List Nat) :
    (commit db (EdgeManager.delete db o t i d)).edge_ranges
      = cfDel db.edge_ranges (EdgeRangeManager.key o t d i) := by
  have h := delete_commit_cf db o i d t CfId.edgeRanges (by simp)
  simp only [Db.cf] at h
  rw [h]
  simp [cfActs, applyActs]

theorem delete_commit_rev (db : Db) (o i d : Nat) (t : List Nat) :
    (commit db (EdgeManager.delete db o t i d)).reversed_edge_ranges
      = cfDel db.reversed_edge_ranges (EdgeRangeManager.key i t d o) := by
  have h := delete_commit_cf db o i d t CfId.reversedEdgeRanges (by simp)
  simp only [Db.cf] at h
  rw [h]
  simp [cfActs, applyActs]

/-- Source `EdgeManager::delete`, invoked with the *current* timestamp of the edge
(its documented contract), preserves the mirror invariant across a
commit. -/
theorem mirrorInv_delete {db : Db} {o i d : Nat} {t : List Nat}
    (hsort : DbSorted db) (hinv : MirrorInv db)
    (ho : UuidLegal o) (hi : UuidLegal i) (hd : DtLegal d)
    (hcur : cfGet db.edges (EdgeManager.key o t i) = some (encDt d)) :
    MirrorInv (commit db (EdgeManager.delete db o t i d)) := by
  have hsE : CfSorted db.edges := hsort CfId.edges
  have hsF : CfSorted db.edge_ranges := hsort CfId.edgeRanges
  have hsR : CfSorted db.reversed_edge_ranges := hsort CfId.reversedEdgeRanges
  have hE := delete_commit_edges db o i d t
  have hF := delete_commit_fwd db o i d t
  have hR := delete_commit_rev db o i d t
  unfold MirrorInv
  refine ⟨?_, ?_, ?_, ?_⟩
  · intro e he
    rw [hE] at he
    exact hinv.1 e ((mem_cfDel_iff hsE).1 he).1
  · intro r hr
    rw [hF] at hr
    obtain ⟨hold, hne⟩ := (mem_cfDel_iff hsF).1 hr
    obtain ⟨f, t', d', s, hf, ht', hd', hs, hkeq, hveq, hdec, hget⟩ :=
      inv_fwd_row hinv hold
    refine ⟨(RangeKeyOk_iff _).2 ⟨f, t', d', s, hf, ht', hd', hs, hkeq⟩, hveq, ?_⟩
    rw [hdec]
    show cfGet (commit db (EdgeManager.delete db o t i d)).edges
        (EdgeManager.key f t' s) = some (encDt d')
    rw [hE]
    by_cases hek : EdgeManager.key f t' s = EdgeManager.key o t i
    · exfalso
      obtain ⟨rfl, rfl, rfl⟩ := EdgeManager.edge_key_inj hf hs ho hi hek
      rw [hcur] at hget
      injection hget with hget'
      have hdd : d' = d := encDt_inj hd' hd hget'.symm
      exact hne (by rw [hkeq, hdd])
    · rw [cfGet_cfDel_ne _ hek]
      exact hget
  · intro r hr
    rw [hR] at hr
    obtain ⟨hold, hne⟩ := (mem_cfDel_iff hsR).1 hr
    obtain ⟨f, t', d', s, hf, ht', hd', hs, hkeq, hveq, hdec, hget⟩ :=
      inv_rev_row hinv hold
    refine ⟨(RangeKeyOk_iff _).2 ⟨f, t', d', s, hf, ht', hd', hs, hkeq⟩, hveq, ?_⟩
    rw [hdec]
    show cfGet (commit db (EdgeManager.delete db o t i d)).edges
        (EdgeManager.key s t' f) = some (encDt d')
    rw [hE]
    by_cases hek : EdgeManager.key s t' f = EdgeManager.key o t i
    · exfalso
      obtain ⟨rfl, rfl, rfl⟩ := EdgeManager.edge_key_inj hs hf ho hi hek
      rw [hcur] at hget
      injection hget with hget'
      have hdd : d' = d := encDt_inj hd' hd hget'.symm
      exact hne (by rw [hkeq, hdd])
    · rw [cfGet_cfDel_ne _ hek]
      exact hget
  · intro e he
    rw [hE] at he
    obtain ⟨hold, hne⟩ := (mem_cfDel_iff hsE).1 he
    obtain ⟨o', t', i', d', ho', ht', hi', hd', hkeq, hveq, hdecE, hdt⟩ :=
      inv_edges_row hinv hold
    obtain ⟨hmF, hmR⟩ := inv_edges_mirror hinv hold hdecE hdt
    rw [hdecE, hdt]
    constructor
    · rw [hF]
      by_cases hk : EdgeRangeManager.key o' t' d' i' = EdgeRangeManager.key o t d i
      · exfalso
        obtain ⟨rfl, rfl, rfl, rfl⟩ := EdgeRangeManager.range_key_inj ho' hd' hi' ho hd hi hk
        exact hne hkeq
      · rw [cfGet_cfDel_ne _ hk]
        exact hmF
    · rw [hR]
      by_cases hk : EdgeRangeManager.key i' t' d' o' = EdgeRangeManager.key i t d o
      · exfalso
        obtain ⟨rfl, rfl, rfl, rfl⟩ := EdgeRangeManager.range_key_inj hi' hd' ho' hi hd ho hk
        exact hne hkeq
      · rw [cfGet_cfDel_ne _ hk]
        exact hmR

theorem cfGet_fst_of_mem {cf : Cf} {e : Row} (hs : CfSorted cf) (h : e ∈ cf) :
    cfGet cf e.1 = some e.2 := by
  obtain ⟨k, v⟩ := e
  exact cfGet_some_of_mem hs h

/-- The mirror invariant implies P1. -/
theorem mirrorP1_of_inv {db : Db} (hsort : DbSorted db) (hinv : MirrorInv db) :
    MirrorP1 db := by
  intro e he
  obtain ⟨o', t', i', d', ho', ht', hi', hd', hkeq, hveq, hdecE, hdt⟩ :=
    inv_edges_row hinv he
  obtain ⟨hmF, hmR⟩ := inv_edges_mirror hinv he hdecE hdt
  have hgetE : cfGet db.edges e.1 = some e.2 := cfGet_fst_of_mem (hsort CfId.edges) he
  rw [hkeq, hveq] at hgetE
  rw [hdecE, hdt]
  refine ⟨hmF, hmR, ?_, ?_⟩
  · intro dd hdd hmem
    rw [List.mem_map] at hmem
    obtain ⟨r, hr, hr1⟩ := hmem
    obtain ⟨f, t2, d2, s, hf, ht2, hd2, hs2, hkeq2, hveq2, hdec2, hget2⟩ :=
      inv_fwd_row hinv hr
    rw [hkeq2] at hr1
    obtain ⟨rfl, rfl, rfl, rfl⟩ := EdgeRangeManager.range_key_inj hf hd2 hs2 ho' hdd hi' hr1
    rw [hgetE] at hget2
    injection hget2 with hget2'
    exact encDt_inj hd2 hd' hget2'.symm
  · intro dd hdd hmem
    rw [List.mem_map] at hmem
    obtain ⟨r, hr, hr1⟩ := hmem
    obtain ⟨f, t2, d2, s, hf, ht2, hd2, hs2, hkeq2, hveq2, hdec2, hget2⟩ :=
      inv_rev_row hinv hr
    rw [hkeq2] at hr1
    obtain ⟨rfl, rfl, rfl, rfl⟩ := EdgeRangeManager.range_key_inj hf hd2 hs2 hi' hdd ho' hr1
    rw [hgetE] at hget2
    injection hget2 with hget2'
    exact encDt_inj hd2 hd' hget2'.symm

/-- C1: in every store satisfying the mirror invariant — which holds
after any successful batch commit of the edge operations, since both
operations preserve it — every edge row `(o,t,i)` with stored timestamp
`d` has its two range rows `(o,t,d,i)` forward and `(i,t,d,o)` reversed,
and no other range row mentions `(o,t,i)` in either family (`MirrorP1`);
`EdgeManager.set` preserves the invariant (and sortedness) for any legal
arguments, and `EdgeManager.delete` preserves it when called with the
current timestamp of the edge, its documented contract. -/
theorem C1_edge_range_mirror (db : Db) (hsort : DbSorted db) (hinv : MirrorInv db) :
    MirrorP1 db
    ∧ (∀ (o i d : Nat) (t : List Nat),
        UuidLegal o → TyLegal t → UuidLegal i → DtLegal d →
        MirrorInv (commit db (EdgeManager.set db o t i d))
        ∧ DbSorted (commit db (EdgeManager.set db o t i d)))
    ∧ (∀ (o i d : Nat) (t : List Nat),
        UuidLegal o → TyLegal t → UuidLegal i → DtLegal d →
        cfGet db.edges (EdgeManager.key o t i) = some (encDt d) →
        MirrorInv (commit db (EdgeManager.delete db o t i d))
        ∧ DbSorted (commit db (EdgeManager.delete db o t i d))) :=
  ⟨mirrorP1_of_inv hsort hinv,
   fun _ _ _ _ ho ht hi hd =>
     ⟨mirrorInv_set hsort hinv ho ht hi hd, commit_sorted _ hsort⟩,
   fun _ _ _ _ ho _ hi hd hcur =>
     ⟨mirrorInv_delete hsort hinv ho hi hd hcur, commit_sorted _ hsort⟩⟩

theorem C1_edge_range_mirror_witness :
    MirrorP1
      ⟨[], [(EdgeManager.key 1 [7] 2, encDt 5)],
        [(EdgeRangeManager.key 1 [7] 5 2, [])],
        [(EdgeRangeManager.key 2 [7] 5 1, [])], [], []⟩ :=
  (C1_edge_range_mirror
    ⟨[], [(EdgeManager.key 1 [7] 2, encDt 5)],
      [(EdgeRangeManager.key 1 [7] 5 2, [])],
      [(EdgeRangeManager.key 2 [7] 5 1, [])], [], []⟩
    (by decide) (by decide)).1

theorem set_commit_edges (db : Db) (o i d : Nat) (t : List Nat) :
    (commit db (EdgeManager.set db o t i d)).edges
      = cfPut db.edges (EdgeManager.key o t i) (build [Component.dt d]) := by
  cases hcur : cfGet db.edges (EdgeManager.key o t i) with
  | none =>
    have hops : EdgeManager.set db o t i d
        = [BatchOp.put CfId.edges (EdgeManager.key o t i) (build [Component.dt d]),
           BatchOp.put CfId.edgeRanges (EdgeRangeManager.key o t d i) [],
           BatchOp.put CfId.reversedEdgeRanges (EdgeRangeManager.key i t d o) []] := by
      simp [EdgeManager.set, hcur, EdgeRangeManager.set]
    rw [hops]; rfl
  | some v0 =>
    have hops : EdgeManager.set db o t i d
        = [BatchOp.del CfId.edgeRanges
             (EdgeRangeManager.key o t (read_datetime v0).1 i),
           BatchOp.del CfId.reversedEdgeRanges
             (EdgeRangeManager.key i t (read_datetime v0).1 o),
           BatchOp.put CfId.edges (EdgeManager.key o t i) (build [Component.dt d]),
           BatchOp.put CfId.edgeRanges (EdgeRangeManager.key o t d i) [],
           BatchOp.put CfId.reversedEdgeRanges (EdgeRangeManager.key i t d o) []] := by
      simp [EdgeManager.set, hcur, EdgeRangeManager.set, EdgeRangeManager.delete]
    rw [hops]; rfl

/-- C3: starting from any store satisfying the mirror invariant, two
successive `set(o,t,i,d1)` then `set(o,t,i,d2)`, each committed before
the next operation reads (per the read-after-write rule a read between
staging and commit would not see the pending write), leave the edge row
at `d2`, exactly the two mirror range rows at `d2`, and — when
`d1 ≠ d2` — no range row at `d1` in either family. -/
theorem C3_edge_set_upsert (db db1 db2 : Db) (o i d1 d2 : Nat) (t : List Nat)
    (hsort : DbSorted db) (hinv : MirrorInv db)
    (ho : UuidLegal o) (ht : TyLegal t) (hi : UuidLegal i)
    (hd1 : DtLegal d1) (hd2 : DtLegal d2)
    (h1 : db1 = commit db (EdgeManager.set db o t i d1))
    (h2 : db2 = commit db1 (EdgeManager.set db1 o t i d2)) :
    cfGet db2.edges (EdgeManager.key o t i) = some (encDt d2)
    ∧ cfGet db2.edge_ranges (EdgeRangeManager.key o t d2 i) = some []
    ∧ cfGet db2.reversed_edge_ranges (EdgeRangeManager.key i t d2 o) = some []
    ∧ (∀ d', DtLegal d' →
        EdgeRangeManager.key o t d' i ∈ db2.edge_ranges.map Prod.fst → d' = d2)
    ∧ (∀ d', DtLegal d' →
        EdgeRangeManager.key i t d' o ∈ db2.reversed_edge_ranges.map Prod.fst →
        d' = d2)
    ∧ (d1 ≠ d2 →
        EdgeRangeManager.key o t d1 i ∉ db2.edge_ranges.map Prod.fst
        ∧ EdgeRangeManager.key i t d1 o ∉ db2.reversed_edge_ranges.map Prod.fst) := by
  subst h1
  subst h2
  have hsort1 : DbSorted (commit db (EdgeManager.set db o t i d1)) :=
    commit_sorted _ hsort
  have hinv1 : MirrorInv (commit db (EdgeManager.set db o t i d1)) :=
    mirrorInv_set hsort hinv ho ht hi hd1
  have hsort2 := commit_sorted (EdgeManager.set (commit db (EdgeManager.set db o t i d1)) o t i d2) hsort1
  have hinv2 := mirrorInv_set hsort1 hinv1 ho ht hi hd2
  have hget2 : cfGet (commit (commit db (EdgeManager.set db o t i d1))
      (EdgeManager.set (commit db (EdgeManager.set db o t i d1)) o t i d2)).edges
      (EdgeManager.key o t i) = some (encDt d2) := by
    rw [set_commit_edges, cfGet_cfPut_self, build_dt]
  have hmem := mem_of_cfGet_some hget2
  have hp1 := mirrorP1_of_inv hsort2 hinv2 _ hmem
  have hdecE : decodeEdgeKey ((EdgeManager.key o t i, encDt d2).1) = (o, t, i) :=
    @decodeEdgeKey_key o t i ho hi
  have hdt : (read_datetime ((EdgeManager.key o t i, encDt d2).2)).1 = d2 :=
    read_datetime_encDt hd2
  rw [hdecE, hdt] at hp1
  obtain ⟨hmF, hmR, hUF, hUR⟩ := hp1
  refine ⟨hget2, hmF, hmR, hUF, hUR, ?_⟩
  intro hne
  exact ⟨fun hmem1 => hne (hUF d1 hd1 hmem1), fun hmem1 => hne (hUR d1 hd1 hmem1)⟩

theorem C3_edge_set_upsert_witness :
    cfGet (commit (commit ⟨[], [], [], [], [], []⟩
          (EdgeManager.set ⟨[], [], [], [], [], []⟩ 1 [7] 2 5))
        (EdgeManager.set
          (commit ⟨[], [], [], [], [], []⟩
            (EdgeManager.set ⟨[], [], [], [], [], []⟩ 1 [7] 2 5)) 1 [7] 2 9)).edges
        (EdgeManager.key 1 [7] 2) = some (encDt 9) :=
  (C3_edge_set_upsert ⟨[], [], [], [], [], []⟩ _ _ 1 2 5 9 [7]
    (by decide) (by decide) (by decide) (by decide) (by decide) (by decide) (by decide)
    rfl rfl).1

theorem build_uuid (v : Nat) : build [Component.uuid v] = encUuid v := build_one _

theorem epKey_split (o : Nat) (t : List Nat) (i : Nat) (name : List Nat) :
    EdgePropertyManager.key o t i name = EdgeManager.key o t i ++ name := by
  simp [EdgePropertyManager.key, EdgeManager.key, build, Component.enc]

theorem startsW_uuid_fst {v : Nat} {k : List Nat} (hv : UuidLegal v)
    (h : startsW (build [Component.uuid v]) k = true) : (read_uuid k).1 = v := by
  rw [build_uuid] at h
  obtain ⟨rest, rfl⟩ := (startsW_iff _ _).1 h
  rw [read_uuid_enc hv]

theorem vpKey_rebuild {v : Nat} {k : List Nat} (hv : UuidLegal v)
    (h : startsW (build [Component.uuid v]) k = true) :
    VertexPropertyManager.key (decodeVpKey k).1 (decodeVpKey k).2 = k := by
  rw [build_uuid] at h
  obtain ⟨rest, rfl⟩ := (startsW_iff _ _).1 h
  have hdec : decodeVpKey (encUuid v ++ rest) = (v, rest) := by
    simp [decodeVpKey, read_uuid_enc hv, read_unsized_string]
  rw [hdec]
  simp [VertexPropertyManager.key, build, Component.enc]

theorem cfActs_all_none {c : CfId} {l : List BatchOp}
    (h : ∀ op ∈ l, ∃ c' k, op = BatchOp.del c' k) :
    ∀ a ∈ cfActs c l, a.2 = (none : Option (List Nat)) := by
  induction l with
  | nil => intro a ha; simp [cfActs] at ha
  | cons op rest ih =>
    intro a ha
    have hrest := fun op hm => h op (List.mem_cons_of_mem _ hm)
    obtain ⟨c', k, rfl⟩ := h op (List.mem_cons_self _ _)
    by_cases hc : c' = c
    · simp only [cfActs, if_pos hc] at ha
      rcases List.mem_cons.1 ha with rfl | ha
      · rfl
      · exact ih hrest a ha
    · simp only [cfActs, if_neg hc] at ha
      exact ih hrest a ha

theorem mem_cfActs_fst {c : CfId} {l : List BatchOp} {q : List Nat} :
    q ∈ (cfActs c l).map Prod.fst
      ↔ (∃ v, BatchOp.put c q v ∈ l) ∨ BatchOp.del c q ∈ l := by
  induction l with
  | nil => simp [cfActs]
  | cons op rest ih =>
    cases op with
    | put c' k v =>
      by_cases hc : c' = c
      · subst hc
        simp only [cfActs, if_pos rfl, List.map_cons, List.mem_cons, ih]
        aesop
      · simp only [cfActs, if_neg hc, ih, List.mem_cons]
        aesop
    | del c' k =>
      by_cases hc : c' = c
      · subst hc
        simp only [cfActs, if_pos rfl, List.map_cons, List.mem_cons, ih]
        aesop
      · simp only [cfActs, if_neg hc, ih, List.mem_cons]
        aesop

theorem cfGet_commit_delOnly {db : Db} {ops : List BatchOp} (c : CfId) (q : List Nat)
    (hsort : DbSorted db)
    (hdel : ∀ op ∈ ops, ∃ c' k, op = BatchOp.del c' k) :
    cfGet ((commit db ops).cf c) q
      = if BatchOp.del c q ∈ ops then none else cfGet (db.cf c) q := by
  rw [commit_cf, cfGet_applyActs_delOnly (hsort c) (cfActs_all_none hdel)]
  by_cases hq : BatchOp.del c q ∈ ops
  · rw [if_pos (mem_cfActs_fst.2 (Or.inr hq)), if_pos hq]
  · rw [if_neg ?_, if_neg hq]
    intro hmem
    rcases mem_cfActs_fst.1 hmem with ⟨w, hw⟩ | hd
    · obtain ⟨c', k, he⟩ := hdel _ hw
      exact BatchOp.noConfusion he
    · exact hq hd

theorem mem_commit_delOnly {db : Db} {ops : List BatchOp} (c : CfId) (e : Row)
    (hsort : DbSorted db)
    (hdel : ∀ op ∈ ops, ∃ c' k, op = BatchOp.del c' k) :
    e ∈ (commit db ops).cf c ↔ e ∈ db.cf c ∧ BatchOp.del c e.1 ∉ ops := by
  rw [commit_cf, mem_applyActs_delOnly (hsort c) (cfActs_all_none hdel)]
  constructor
  · rintro ⟨hm, hnot⟩
    exact ⟨hm, fun hd => hnot (mem_cfActs_fst.2 (Or.inr hd))⟩
  · rintro ⟨hm, hnot⟩
    refine ⟨hm, fun hmem => ?_⟩
    rcases mem_cfActs_fst.1 hmem with ⟨w, hw⟩ | hd
    · obtain ⟨c', k, he⟩ := hdel _ hw
      exact BatchOp.noConfusion he
    · exact hnot hd

theorem vertexDelete_eq (db : Db) (v : Nat) :
    VertexManager.delete db v
      = BatchOp.del CfId.vertices (VertexManager.key v)
        :: (vpDels db v ++ (fwdCascade db v ++ revCascade db v)) := by
  simp [VertexManager.delete, vpDels, fwdCascade, revCascade]

theorem mem_vertexDelete {db : Db} {v : Nat} {op : BatchOp} :
    op ∈ VertexManager.delete db v ↔
      op = BatchOp.del CfId.vertices (VertexManager.key v)
      ∨ op ∈ vpDels db v ∨ op ∈ fwdCascade db v ∨ op ∈ revCascade db v := by
  rw [vertexDelete_eq]
  simp [List.mem_cons, List.mem_append]

theorem mem_vpDels_of_row {db : Db} {v : Nat}
    (hsVP : CfSorted db.vertex_properties) (hv : UuidLegal v) {r : Row}
    (hr : r ∈ db.vertex_properties)
    (hpfx : startsW (build [Component.uuid v]) r.1 = true) :
    BatchOp.del CfId.vertexProps r.1 ∈ vpDels db v := by
  have hrS : r ∈ takeWhilePrefixed
      (iterFrom db.vertex_properties (build [Component.uuid v]))
      (build [Component.uuid v]) := by
    rw [scan_eq_filter hsVP, List.mem_filter]
    exact ⟨hr, hpfx⟩
  rcases hdec : decodeVpKey r.1 with ⟨owner, name⟩
  have hkey0 := vpKey_rebuild hv hpfx
  rw [hdec] at hkey0
  have hkey : VertexPropertyManager.key owner name = r.1 := hkey0
  have hitem : (Except.ok ((owner, name), r.2) : Except DbErr OwnedPropertyItem)
      ∈ VertexPropertyManager.iterateForOwner db v := by
    rw [VertexPropertyManager.iterateForOwner, List.mem_map]
    exact ⟨r, hrS, by simp [parseJson, hdec, Except.map]⟩
  rw [vpDels, List.mem_filterMap]
  refine ⟨Except.ok ((owner, name), r.2), hitem, ?_⟩
  simp [hkey]

theorem mem_fwdCascade_of_row {db : Db} {v : Nat}
    (hsF : CfSorted db.edge_ranges) {r : Row}
    (hr : r ∈ db.edge_ranges)
    (hpfx : startsW (build [Component.uuid v]) r.1 = true)
    {f dt s : Nat} {t2 : List Nat} (hdec : decodeRangeKey r.1 = (f, t2, dt, s))
    {op : BatchOp} (hop : op ∈ EdgeManager.delete db f t2 s dt) :
    op ∈ fwdCascade db v := by
  have hrS : r ∈ takeWhilePrefixed
      (iterFrom db.edge_ranges (build [Component.uuid v]))
      (build [Component.uuid v]) := by
    rw [scan_eq_filter hsF, List.mem_filter]
    exact ⟨hr, hpfx⟩
  have hitem : (Except.ok (f, t2, dt, s) : Except DbErr EdgeRangeItem)
      ∈ EdgeRangeManager.iterateForOwner db CfId.edgeRanges v := by
    rw [EdgeRangeManager.iterateForOwner, EdgeRangeManager.iterate, List.mem_map]
    exact ⟨r, hrS, by rw [← hdec]⟩
  rw [fwdCascade, List.mem_flatten]
  refine ⟨EdgeManager.delete db f t2 s dt, ?_, hop⟩
  rw [List.mem_map]
  exact ⟨Except.ok (f, t2, dt, s), hitem, rfl⟩

theorem mem_revCascade_of_row {db : Db} {v : Nat}
    (hsR : CfSorted db.reversed_edge_ranges) {r : Row}
    (hr : r ∈ db.reversed_edge_ranges)
    (hpfx : startsW (build [Component.uuid v]) r.1 = true)
    {f dt s : Nat} {t2 : List Nat} (hdec : decodeRangeKey r.1 = (f, t2, dt, s))
    {op : BatchOp} (hop : op ∈ EdgeManager.delete db s t2 f dt) :
    op ∈ revCascade db v := by
  have hrS : r ∈ takeWhilePrefixed
      (iterFrom db.reversed_edge_ranges (build [Component.uuid v]))
      (build [Component.uuid v]) := by
    rw [scan_eq_filter hsR, List.mem_filter]
    exact ⟨hr, hpfx⟩
  have hitem : (Except.ok (f, t2, dt, s) : Except DbErr EdgeRangeItem)
      ∈ EdgeRangeManager.iterateForOwner db CfId.reversedEdgeRanges v := by
    rw [EdgeRangeManager.iterateForOwner, EdgeRangeManager.iterate, List.mem_map]
    exact ⟨r, hrS, by rw [← hdec]⟩
  rw [revCascade, List.mem_flatten]
  refine ⟨EdgeManager.delete db s t2 f dt, ?_, hop⟩
  rw [List.mem_map]
  exact ⟨Except.ok (f, t2, dt, s), hitem, rfl⟩

theorem edgeDelete_mem_edges (db : Db) (o : Nat) (t : List Nat) (i d : Nat) :
    BatchOp.del CfId.edges (EdgeManager.key o t i) ∈ EdgeManager.delete db o t i d := by
  simp [EdgeManager.delete, EdgeRangeManager.delete]

theorem edgeDelete_mem_fwd (db : Db) (o : Nat) (t : List Nat) (i d : Nat) :
    BatchOp.del CfId.edgeRanges (EdgeRangeManager.key o t d i)
      ∈ EdgeManager.delete db o t i d := by
  simp [EdgeManager.delete, EdgeRangeManager.delete]

theorem edgeDelete_mem_rev (db : Db) (o : Nat) (t : List Nat) (i d : Nat) :
    BatchOp.del CfId.reversedEdgeRanges (EdgeRangeManager.key i t d o)
      ∈ EdgeManager.delete db o t i d := by
  simp [EdgeManager.delete, EdgeRangeManager.delete]

theorem edgeDelete_mem_ep {db : Db} {o i d : Nat} {t : List Nat}
    (hsEP : CfSorted db.edge_properties) {r : Row}
    (hr : r ∈ db.edge_properties)
    (hpfx : startsW (build [Component.uuid o, Component.ty t, Component.uuid i]) r.1
      = true)
    {po pi : Nat} {pt name : List Nat}
    (hdec : decodeEpKey r.1 = (po, pt, pi, name))
    (hkey : EdgePropertyManager.key po pt pi name = r.1) :
    BatchOp.del CfId.edgeProps r.1 ∈ EdgeManager.delete db o t i d := by
  have hrS : r ∈ takeWhilePrefixed
      (iterFrom db.edge_properties
        (build [Component.uuid o, Component.ty t, Component.uuid i]))
      (build [Component.uuid o, Component.ty t, Component.uuid i]) := by
    rw [scan_eq_filter hsEP, List.mem_filter]
    exact ⟨hr, hpfx⟩
  have hitem : (Except.ok (decodeEpKey r.1, r.2) : Except DbErr EdgePropertyItem)
      ∈ EdgePropertyManager.iterateForOwner db o t i := by
    rw [EdgePropertyManager.iterateForOwner, List.mem_map]
    exact ⟨r, hrS, rfl⟩
  rw [hdec] at hitem
  have hmem : BatchOp.del CfId.edgeProps r.1
      ∈ (EdgePropertyManager.iterateForOwner db o t i).filterMap
        (fun item =>
          match item with
          | .ok ((po, pt, pi, name), _) =>
            some (BatchOp.del CfId.edgeProps (EdgePropertyManager.key po pt pi name))
          | .error _ => none) := by
    rw [List.mem_filterMap]
    exact ⟨Except.ok ((po, pt, pi, name), r.2), hitem, by simp [hkey]⟩
  simp only [EdgeManager.delete, EdgeRangeManager.delete]
  simp only [List.cons_append, List.nil_append, List.mem_cons]
  exact Or.inr (Or.inr (Or.inr hmem))

theorem edgeDelete_allDel (db : Db) (o : Nat) (t : List Nat) (i d : Nat) :
    ∀ op ∈ EdgeManager.delete db o t i d, ∃ c' k, op = BatchOp.del c' k := by
  intro op hop
  simp only [EdgeManager.delete, EdgeRangeManager.delete, List.cons_append,
    List.nil_append, List.mem_cons] at hop
  rcases hop with rfl | rfl | rfl | hop
  · exact ⟨_, _, rfl⟩
  · exact ⟨_, _, rfl⟩
  · exact ⟨_, _, rfl⟩
  · rw [List.mem_filterMap] at hop
    obtain ⟨item, _, hmap⟩ := hop
    match item with
    | .ok ((po, pt, pi, name), _) =>
      simp only [Option.some.injEq] at hmap
      exact ⟨_, _, hmap.symm⟩
    | .error _ => exact Option.noConfusion hmap

theorem edgeDelete_opCf (db : Db) (o : Nat) (t : List Nat) (i d : Nat) :
    ∀ op ∈ EdgeManager.delete db o t i d,
      opCf op = CfId.edges ∨ opCf op = CfId.edgeRanges
      ∨ opCf op = CfId.reversedEdgeRanges ∨ opCf op = CfId.edgeProps := by
  intro op hop
  simp only [EdgeManager.delete, EdgeRangeManager.delete, List.cons_append,
    List.nil_append, List.mem_cons] at hop
  rcases hop with rfl | rfl | rfl | hop
  · exact Or.inl rfl
  · exact Or.inr (Or.inl rfl)
  · exact Or.inr (Or.inr (Or.inl rfl))
  · exact Or.inr (Or.inr (Or.inr (epDels_cf db o i t op hop)))

theorem vpDels_cf (db : Db) (v : Nat) :
    ∀ op ∈ vpDels db v, opCf op = CfId.vertexProps := by
  intro op hop
  rw [vpDels, List.mem_filterMap] at hop
  obtain ⟨item, _, hmap⟩ := hop
  match item with
  | .ok ((owner, name), _) =>
    simp only [Option.some.injEq] at hmap
    rw [← hmap]
    rfl
  | .error _ => exact Option.noConfusion hmap

theorem fwdCascade_elim {db : Db} {v : Nat} {op : BatchOp}
    (hop : op ∈ fwdCascade db v) :
    ∃ f dt s, ∃ t2 : List Nat, op ∈ EdgeManager.delete db f t2 s dt := by
  rw [fwdCascade, List.mem_flatten] at hop
  obtain ⟨l, hl, hop'⟩ := hop
  rw [List.mem_map] at hl
  obtain ⟨item, hitem, rfl⟩ := hl
  match item with
  | .ok (f, t2, dt, s) => exact ⟨f, dt, s, t2, hop'⟩
  | .error _ => exact absurd hop' (List.not_mem_nil _)

theorem revCascade_elim {db : Db} {v : Nat} {op : BatchOp}
    (hop : op ∈ revCascade db v) :
    ∃ f dt s, ∃ t2 : List Nat, op ∈ EdgeManager.delete db s t2 f dt := by
  rw [revCascade, List.mem_flatten] at hop
  obtain ⟨l, hl, hop'⟩ := hop
  rw [List.mem_map] at hl
  obtain ⟨item, hitem, rfl⟩ := hl
  match item with
  | .ok (f, t2, dt, s) => exact ⟨f, dt, s, t2, hop'⟩
  | .error _ => exact absurd hop' (List.not_mem_nil _)

theorem vertexDelete_allDel (db : Db) (v : Nat) :
    ∀ op ∈ VertexManager.delete db v, ∃ c' k, op = BatchOp.del c' k := by
  intro op hop
  rcases mem_vertexDelete.1 hop with rfl | hvp | hf | hr
  · exact ⟨_, _, rfl⟩
  · obtain ⟨c', k, he⟩ : ∃ c' k, op = BatchOp.del c' k := by
      rw [vpDels, List.mem_filterMap] at hvp
      obtain ⟨item, _, hmap⟩ := hvp
      match item with
      | .ok ((owner, name), _) =>
        simp only [Option.some.injEq] at hmap
        exact ⟨_, _, hmap.symm⟩
      | .error _ => exact Option.noConfusion hmap
    exact ⟨c', k, he⟩
  · obtain ⟨f, dt, s, t2, hop'⟩ := fwdCascade_elim hf
    exact edgeDelete_allDel db f t2 s dt op hop'
  · obtain ⟨f, dt, s, t2, hop'⟩ := revCascade_elim hr
    exact edgeDelete_allDel db s t2 f dt op hop'

theorem vertexDelete_vertices_unique {db : Db} {v : Nat} {q : List Nat}
    (h : BatchOp.del CfId.vertices q ∈ VertexManager.delete db v) :
    q = VertexManager.key v := by
  rcases mem_vertexDelete.1 h with he | hvp | hf | hr
  · injection he with _ he2
  · have := vpDels_cf db v _ hvp
    exact absurd this (by simp [opCf])
  · obtain ⟨f, dt, s, t2, hop'⟩ := fwdCascade_elim hf
    rcases edgeDelete_opCf db f t2 s dt _ hop' with h1 | h1 | h1 | h1 <;>
      exact absurd h1 (by simp [opCf])
  · obtain ⟨f, dt, s, t2, hop'⟩ := revCascade_elim hr
    rcases edgeDelete_opCf db s t2 f dt _ hop' with h1 | h1 | h1 | h1 <;>
      exact absurd h1 (by simp [opCf])

theorem startsW_rangeKey (f : Nat) (t : List Nat) (d s : Nat) :
    startsW (build [Component.uuid f]) (EdgeRangeManager.key f t d s) = true := by
  rw [build_uuid]
  have hsplit : EdgeRangeManager.key f t d s
      = encUuid f ++ (encTy t ++ (encDt d ++ (encUuid s ++ []))) := by
    simp [EdgeRangeManager.key, build, Component.enc]
  rw [hsplit]
  exact startsW_append _ _

theorem epOwn_row {db : Db} (hep : EdgePropOwn db) {r : Row}
    (hr : r ∈ db.edge_properties) :
    ∃ po pi : Nat, ∃ pt name : List Nat,
      UuidLegal po ∧ TyLegal pt ∧ UuidLegal pi ∧
      decodeEpKey r.1 = (po, pt, pi, name) ∧
      r.1 = EdgePropertyManager.key po pt pi name ∧
      (cfGet db.edges (EdgeManager.key po pt pi)).isSome = true := by
  obtain ⟨h1, h2, h3, h4, h5⟩ := hep r hr
  exact ⟨(decodeEpKey r.1).1, (decodeEpKey r.1).2.2.1, (decodeEpKey r.1).2.1,
    (decodeEpKey r.1).2.2.2, h1, h2, h3, rfl, h4, h5⟩

theorem vdel_get {db : Db} {v : Nat} (c : CfId) (q : List Nat) (hsort : DbSorted db) :
    cfGet ((commit db (VertexManager.delete db v)).cf c) q
      = if BatchOp.del c q ∈ VertexManager.delete db v then none
        else cfGet (db.cf c) q :=
  cfGet_commit_delOnly c q hsort (vertexDelete_allDel db v)

theorem vdel_mem {db : Db} {v : Nat} (c : CfId) (e : Row) (hsort : DbSorted db) :
    e ∈ (commit db (VertexManager.delete db v)).cf c
      ↔ e ∈ db.cf c ∧ BatchOp.del c e.1 ∉ VertexManager.delete db v :=
  mem_commit_delOnly c e hsort (vertexDelete_allDel db v)

theorem vdel_vertices_none {db : Db} {v : Nat} (hsort : DbSorted db) :
    cfGet ((commit db (VertexManager.delete db v)).cf CfId.vertices)
      (VertexManager.key v) = none := by
  rw [vdel_get CfId.vertices _ hsort,
    if_pos (mem_vertexDelete.2 (Or.inl rfl))]

theorem vdel_vertices_other {db : Db} {v w : Nat} (hsort : DbSorted db)
    (hv : UuidLegal v) (hw : UuidLegal w) (hne : w ≠ v) :
    cfGet ((commit db (VertexManager.delete db v)).cf CfId.vertices)
      (VertexManager.key w) = cfGet db.vertices (VertexManager.key w) := by
  rw [vdel_get CfId.vertices _ hsort, if_neg]
  · rfl
  · intro hmem
    have hkeq := vertexDelete_vertices_unique hmem
    rw [VertexManager.key, VertexManager.key, build_uuid, build_uuid] at hkeq
    exact hne (encUuid_inj hw hv hkeq)

theorem vdel_vp_clean {db : Db} {v : Nat} (hsort : DbSorted db) (hv : UuidLegal v) :
    ∀ r ∈ (commit db (VertexManager.delete db v)).cf CfId.vertexProps,
      startsW (build [Component.uuid v]) r.1 = false := by
  intro r hr
  obtain ⟨hold, hnot⟩ := (vdel_mem CfId.vertexProps r hsort).1 hr
  cases hpfx : startsW (build [Component.uuid v]) r.1 with
  | false => rfl
  | true =>
    exfalso
    apply hnot
    exact mem_vertexDelete.2 (Or.inr (Or.inl
      (mem_vpDels_of_row (hsort CfId.vertexProps) hv hold hpfx)))

theorem vdel_edges_none {db : Db} {v : Nat} (hsort : DbSorted db) (hinv : MirrorInv db)
    {o i : Nat} {t : List Nat}
    (ho : UuidLegal o) (hi : UuidLegal i) (hcase : o = v ∨ i = v) :
    cfGet ((commit db (VertexManager.delete db v)).cf CfId.edges)
      (EdgeManager.key o t i) = none := by
  rw [vdel_get CfId.edges _ hsort]
  by_cases hdel : BatchOp.del CfId.edges (EdgeManager.key o t i)
      ∈ VertexManager.delete db v
  · rw [if_pos hdel]
  · rw [if_neg hdel]
    cases hold : cfGet (db.cf CfId.edges) (EdgeManager.key o t i) with
    | none => rfl
    | some val =>
      exfalso
      apply hdel
      have hmemE : (EdgeManager.key o t i, val) ∈ db.edges := mem_of_cfGet_some hold
      obtain ⟨o', t', i', d', ho', ht', hi', hd', hkeq, hveq, hdecE, hdt⟩ :=
        inv_edges_row hinv hmemE
      obtain ⟨rfl, rfl, rfl⟩ := EdgeManager.edge_key_inj ho hi ho' hi' hkeq
      obtain ⟨hmF, hmR⟩ := inv_edges_mirror hinv hmemE hdecE hdt
      rcases hcase with rfl | rfl
      · have hrmem : (EdgeRangeManager.key o t d' i, ([] : List Nat))
            ∈ db.edge_ranges := mem_of_cfGet_some hmF
        have hpfx : startsW (build [Component.uuid o])
            ((EdgeRangeManager.key o t d' i, ([] : List Nat)).1) = true :=
          startsW_rangeKey o t d' i
        have hdec : decodeRangeKey ((EdgeRangeManager.key o t d' i, ([] : List Nat)).1)
            = (o, t, d', i) := @decodeRangeKey_key o t d' i ho hd' hi
        exact mem_vertexDelete.2 (Or.inr (Or.inr (Or.inl
          (mem_fwdCascade_of_row (hsort CfId.edgeRanges) hrmem hpfx hdec
            (edgeDelete_mem_edges db o t i d')))))
      · have hrmem : (EdgeRangeManager.key i t d' o, ([] : List Nat))
            ∈ db.reversed_edge_ranges := mem_of_cfGet_some hmR
        have hpfx : startsW (build [Component.uuid i])
            ((EdgeRangeManager.key i t d' o, ([] : List Nat)).1) = true :=
          startsW_rangeKey i t d' o
        have hdec : decodeRangeKey ((EdgeRangeManager.key i t d' o, ([] : List Nat)).1)
            = (i, t, d', o) := @decodeRangeKey_key i t d' o hi hd' ho
        exact mem_vertexDelete.2 (Or.inr (Or.inr (Or.inr
          (mem_revCascade_of_row (hsort CfId.reversedEdgeRanges) hrmem hpfx hdec
            (edgeDelete_mem_edges db o t i d')))))

theorem vdel_fwdrange_none {db : Db} {v : Nat} (hsort : DbSorted db)
    (hinv : MirrorInv db) {f dd s : Nat} {t : List Nat}
    (hf : UuidLegal f) (hdd : DtLegal dd) (hs : UuidLegal s)
    (hcase : f = v ∨ s = v) :
    cfGet ((commit db (VertexManager.delete db v)).cf CfId.edgeRanges)
      (EdgeRangeManager.key f t dd s) = none := by
  rw [vdel_get CfId.edgeRanges _ hsort]
  by_cases hdel : BatchOp.del CfId.edgeRanges (EdgeRangeManager.key f t dd s)
      ∈ VertexManager.delete db v
  · rw [if_pos hdel]
  · rw [if_neg hdel]
    cases hold : cfGet (db.cf CfId.edgeRanges) (EdgeRangeManager.key f t dd s) with
    | none => rfl
    | some val =>
      exfalso
      apply hdel
      have hmemR : (EdgeRangeManager.key f t dd s, val) ∈ db.edge_ranges :=
        mem_of_cfGet_some hold
      obtain ⟨f', t', dd', s', hf', ht', hdd', hs', hkeq, hveq, hdecR, hget⟩ :=
        inv_fwd_row hinv hmemR
      obtain ⟨rfl, rfl, rfl, rfl⟩ :=
        EdgeRangeManager.range_key_inj hf hdd hs hf' hdd' hs' hkeq
      rcases hcase with rfl | rfl
      · have hpfx : startsW (build [Component.uuid f])
            ((EdgeRangeManager.key f t dd s, val).1) = true :=
          startsW_rangeKey f t dd s
        exact mem_vertexDelete.2 (Or.inr (Or.inr (Or.inl
          (mem_fwdCascade_of_row (hsort CfId.edgeRanges) hmemR hpfx hdecR
            (edgeDelete_mem_fwd db f t s dd)))))
      · have hmemE : (EdgeManager.key f t s, encDt dd) ∈ db.edges :=
          mem_of_cfGet_some hget
        have hdecE : decodeEdgeKey (EdgeManager.key f t s) = (f, t, s) :=
          @decodeEdgeKey_key f t s hf hs
        have hdt : (read_datetime (encDt dd)).1 = dd := read_datetime_encDt hdd
        obtain ⟨hmF, hmR⟩ := inv_edges_mirror hinv hmemE hdecE hdt
        have hrmem2 : (EdgeRangeManager.key s t dd f, ([] : List Nat))
            ∈ db.reversed_edge_ranges := mem_of_cfGet_some hmR
        have hpfx2 : startsW (build [Component.uuid s])
            ((EdgeRangeManager.key s t dd f, ([] : List Nat)).1) = true :=
          startsW_rangeKey s t dd f
        have hdec2 : decodeRangeKey ((EdgeRangeManager.key s t dd f, ([] : List Nat)).1)
            = (s, t, dd, f) := @decodeRangeKey_key s t dd f hs hdd hf
        exact mem_vertexDelete.2 (Or.inr (Or.inr (Or.inr
          (mem_revCascade_of_row (hsort CfId.reversedEdgeRanges) hrmem2 hpfx2 hdec2
            (edgeDelete_mem_fwd db f t s dd)))))

theorem vdel_revrange_none {db : Db} {v : Nat} (hsort : DbSorted db)
    (hinv : MirrorInv db) {f dd s : Nat} {t : List Nat}
    (hf : UuidLegal f) (hdd : DtLegal dd) (hs : UuidLegal s)
    (hcase : f = v ∨ s = v) :
    cfGet ((commit db (VertexManager.delete db v)).cf CfId.reversedEdgeRanges)
      (EdgeRangeManager.key f t dd s) = none := by
  rw [vdel_get CfId.reversedEdgeRanges _ hsort]
  by_cases hdel : BatchOp.del CfId.reversedEdgeRanges (EdgeRangeManager.key f t dd s)
      ∈ VertexManager.delete db v
  · rw [if_pos hdel]
  · rw [if_neg hdel]
    cases hold : cfGet (db.cf CfId.reversedEdgeRanges) (EdgeRangeManager.key f t dd s) with
    | none => rfl
    | some val =>
      exfalso
      apply hdel
      have hmemR : (EdgeRangeManager.key f t dd s, val) ∈ db.reversed_edge_ranges :=
        mem_of_cfGet_some hold
      obtain ⟨f', t', dd', s', hf', ht', hdd', hs', hkeq, hveq, hdecR, hget⟩ :=
        inv_rev_row hinv hmemR
      obtain ⟨rfl, rfl, rfl, rfl⟩ :=
        EdgeRangeManager.range_key_inj hf hdd hs hf' hdd' hs' hkeq
      rcases hcase with rfl | rfl
      · have hpfx : startsW (build [Component.uuid f])
            ((EdgeRangeManager.key f t dd s, val).1) = true :=
          startsW_rangeKey f t dd s
        exact mem_vertexDelete.2 (Or.inr (Or.inr (Or.inr
          (mem_revCascade_of_row (hsort CfId.reversedEdgeRanges) hmemR hpfx hdecR
            (edgeDelete_mem_rev db s t f dd)))))
      · have hmemE : (EdgeManager.key s t f, encDt dd) ∈ db.edges :=
          mem_of_cfGet_some hget
        have hdecE : decodeEdgeKey (EdgeManager.key s t f) = (s, t, f) :=
          @decodeEdgeKey_key s t f hs hf
        have hdt : (read_datetime (encDt dd)).1 = dd := read_datetime_encDt hdd
        obtain ⟨hmF, hmR⟩ := inv_edges_mirror hinv hmemE hdecE hdt
        have hrmem2 : (EdgeRangeManager.key s t dd f, ([] : List Nat))
            ∈ db.edge_ranges := mem_of_cfGet_some hmF
        have hpfx2 : startsW (build [Component.uuid s])
            ((EdgeRangeManager.key s t dd f, ([] : List Nat)).1) = true :=
          startsW_rangeKey s t dd f
        have hdec2 : decodeRangeKey ((EdgeRangeManager.key s t dd f, ([] : List Nat)).1)
            = (s, t, dd, f) := @decodeRangeKey_key s t dd f hs hdd hf
        exact mem_vertexDelete.2 (Or.inr (Or.inr (Or.inl
          (mem_fwdCascade_of_row (hsort CfId.edgeRanges) hrmem2 hpfx2 hdec2
            (edgeDelete_mem_rev db s t f dd)))))

theorem vdel_ep_clean {db : Db} {v : Nat} (hsort : DbSorted db) (hinv : MirrorInv db)
    (hep : EdgePropOwn db) :
    ∀ r ∈ (commit db (VertexManager.delete db v)).cf CfId.edgeProps,
      (decodeEpKey r.1).1 ≠ v ∧ (decodeEpKey r.1).2.2.1 ≠ v := by
  intro r hr
  obtain ⟨hold, hnot⟩ := (vdel_mem CfId.edgeProps r hsort).1 hr
  obtain ⟨po, pi, pt, name, hpo, hpt, hpi, hdec, hkey, hsome⟩ := epOwn_row hep hold
  cases hgv : cfGet db.edges (EdgeManager.key po pt pi) with
  | none =>
    rw [hgv] at hsome
    exact absurd hsome (by simp)
  | some val =>
    have hmemE : (EdgeManager.key po pt pi, val) ∈ db.edges := mem_of_cfGet_some hgv
    obtain ⟨o', t', i', d', ho', ht', hi', hd', hkeq, hveq, hdecE, hdt⟩ :=
      inv_edges_row hinv hmemE
    obtain ⟨rfl, rfl, rfl⟩ := EdgeManager.edge_key_inj hpo hpi ho' hi' hkeq
    obtain ⟨hmF, hmR⟩ := inv_edges_mirror hinv hmemE hdecE hdt
    have hpfxEp : startsW
        (build [Component.uuid po, Component.ty pt, Component.uuid pi]) r.1 = true := by
      rw [hkey, epKey_split]
      exact startsW_append (EdgeManager.key po pt pi) name
    have hopEp : BatchOp.del CfId.edgeProps r.1 ∈ EdgeManager.delete db po pt pi d' :=
      edgeDelete_mem_ep (hsort CfId.edgeProps) hold hpfxEp hdec hkey.symm
    constructor
    · intro heq
      rw [hdec] at heq
      simp only at heq
      subst heq
      apply hnot
      have hrmem : (EdgeRangeManager.key po pt d' pi, ([] : List Nat))
          ∈ db.edge_ranges := mem_of_cfGet_some hmF
      have hpfx : startsW (build [Component.uuid po])
          ((EdgeRangeManager.key po pt d' pi, ([] : List Nat)).1) = true :=
        startsW_rangeKey po pt d' pi
      have hdec2 : decodeRangeKey ((EdgeRangeManager.key po pt d' pi,
          ([] : List Nat)).1) = (po, pt, d', pi) :=
        @decodeRangeKey_key po pt d' pi hpo hd' hpi
      exact mem_vertexDelete.2 (Or.inr (Or.inr (Or.inl
        (mem_fwdCascade_of_row (hsort CfId.edgeRanges) hrmem hpfx hdec2 hopEp))))
    · intro heq
      rw [hdec] at heq
      simp only at heq
      subst heq
      apply hnot
      have hrmem : (EdgeRangeManager.key pi pt d' po, ([] : List Nat))
          ∈ db.reversed_edge_ranges := mem_of_cfGet_some hmR
      have hpfx : startsW (build [Component.uuid pi])
          ((EdgeRangeManager.key pi pt d' po, ([] : List Nat)).1) = true :=
        startsW_rangeKey pi pt d' po
      have hdec2 : decodeRangeKey ((EdgeRangeManager.key pi pt d' po,
          ([] : List Nat)).1) = (pi, pt, d', po) :=
        @decodeRangeKey_key pi pt d' po hpi hd' hpo
      exact mem_vertexDelete.2 (Or.inr (Or.inr (Or.inr
        (mem_revCascade_of_row (hsort CfId.reversedEdgeRanges) hrmem hpfx hdec2 hopEp))))

/-- C2: after committing `VertexManager.delete(batch, v)` staged against a
store satisfying the mirror invariant and edge-property ownership (spec
global invariants 1–2): `exists(v)` is false; no vertex-property row has
key prefix `UUID(v)`; no edge row has `v` as outbound or inbound
endpoint; no range row in either family mentions `v` (as first or second
id); no edge-property row belongs to an edge incident to `v`; and every
row of every other vertex is unchanged. -/
theorem C2_vertex_delete_cascade (db : Db) (v : Nat) (hsort : DbSorted db)
    (hinv : MirrorInv db) (hep : EdgePropOwn db) (hv : UuidLegal v) :
    VertexManager.existsVertex (commit db (VertexManager.delete db v)) v = .ok false
    ∧ (∀ r ∈ (commit db (VertexManager.delete db v)).vertex_properties,
        startsW (build [Component.uuid v]) r.1 = false)
    ∧ (∀ (o i : Nat) (t : List Nat), UuidLegal o → UuidLegal i → o = v ∨ i = v →
        cfGet (commit db (VertexManager.delete db v)).edges
          (EdgeManager.key o t i) = none)
    ∧ (∀ (f dd s : Nat) (t : List Nat), UuidLegal f → DtLegal dd → UuidLegal s →
        f = v ∨ s = v →
        cfGet (commit db (VertexManager.delete db v)).edge_ranges
          (EdgeRangeManager.key f t dd s) = none
        ∧ cfGet (commit db (VertexManager.delete db v)).reversed_edge_ranges
            (EdgeRangeManager.key f t dd s) = none)
    ∧ (∀ r ∈ (commit db (VertexManager.delete db v)).edge_properties,
        (decodeEpKey r.1).1 ≠ v ∧ (decodeEpKey r.1).2.2.1 ≠ v)
    ∧ (∀ w : Nat, UuidLegal w → w ≠ v →
        cfGet (commit db (VertexManager.delete db v)).vertices (VertexManager.key w)
          = cfGet db.vertices (VertexManager.key w)) := by
  have h0 : cfGet (commit db (VertexManager.delete db v)).vertices
      (VertexManager.key v) = none := vdel_vertices_none hsort
  refine ⟨?_, ?_, ?_, ?_, ?_, ?_⟩
  · simp [VertexManager.existsVertex, h0]
  · exact vdel_vp_clean hsort hv
  · intro o i t ho hi hcase
    exact vdel_edges_none hsort hinv ho hi hcase
  · intro f dd s t hf hdd hs hcase
    exact ⟨vdel_fwdrange_none hsort hinv hf hdd hs hcase,
      vdel_revrange_none hsort hinv hf hdd hs hcase⟩
  · exact vdel_ep_clean hsort hinv hep
  · intro w hw hwne
    exact vdel_vertices_other hsort hv hw hwne

theorem C2_vertex_delete_cascade_witness :
    VertexManager.existsVertex
      (commit
        ⟨[(VertexManager.key 1, build [Component.ty [117]]),
          (VertexManager.key 2, build [Component.ty [117]])],
         [(EdgeManager.key 1 [7] 2, encDt 5)],
         [(EdgeRangeManager.key 1 [7] 5 2, [])],
         [(EdgeRangeManager.key 2 [7] 5 1, [])],
         [(VertexPropertyManager.key 1 [110], [97])],
         [(EdgePropertyManager.key 1 [7] 2 [110], [97])]⟩
        (VertexManager.delete
          ⟨[(VertexManager.key 1, build [Component.ty [117]]),
            (VertexManager.key 2, build [Component.ty [117]])],
           [(EdgeManager.key 1 [7] 2, encDt 5)],
           [(EdgeRangeManager.key 1 [7] 5 2, [])],
           [(EdgeRangeManager.key 2 [7] 5 1, [])],
           [(VertexPropertyManager.key 1 [110], [97])],
           [(EdgePropertyManager.key 1 [7] 2 [110], [97])]⟩ 1)) 1 = .ok false :=
  (C2_vertex_delete_cascade
    ⟨[(VertexManager.key 1, build [Component.ty [117]]),
      (VertexManager.key 2, build [Component.ty [117]])],
     [(EdgeManager.key 1 [7] 2, encDt 5)],
     [(EdgeRangeManager.key 1 [7] 5 2, [])],
     [(EdgeRangeManager.key 2 [7] 5 1, [])],
     [(VertexPropertyManager.key 1 [110], [97])],
     [(EdgePropertyManager.key 1 [7] 2 [110], [97])]⟩ 1
    (by decide) (by decide) (by decide) (by decide)).1
